import Mathlib

/-!
Verification of the steganography codec (`src/index.ts`).

Shallow embedding conventions:
* A `Uint8Array` is a `List Nat`; stores into it reduce the value `% 256`
  (typed-array stores wrap), out-of-range stores are ignored (`List.set` is a
  no-op out of range) and out-of-range reads give `0` after masking, matching
  `undefined & mask = 0` in JavaScript.
* File names are represented by their UTF-8 byte sequences (`utf8ToBytes` /
  `bytesToUtf8` are the external encoder pair; they are mutually inverse on
  the valid names the claims quantify over).
* Fallible code returns `Except String`.
* JavaScript `number` arithmetic on lengths/capacities is exact integer
  arithmetic here (`Int` where the source can go negative).
* The AES-GCM provider is external; round-trip claims take it as an abstract
  pair `enc`/`dec` constrained by its documented contract.
* Randomness (`getRandomByte`) is an oracle `rnd : Nat → Nat` together with a
  call counter; results are reduced `% 256` at the call site.
-/

/-- `clearBits(0b101010, 4) = 0b100000` (from `clearBits` in the source). -/
def clearBits (n : Nat) (bits : Nat) : Nat := (n >>> bits) <<< bits

/-- `readBit(byte, pos) = (byte >> (7 - pos)) & 1` (from `readBit`). -/
def readBit (byte : Nat) (pos : Nat) : Nat := (byte >>> (7 - pos)) &&& 1

/-- `isAlpha(pixel) = pixel % 4 === 3` (from `isAlpha`). -/
def isAlpha (pixel : Nat) : Bool := pixel % 4 == 3

/-- `validateBits` succeeds exactly on integers `1..8` (from `validateBits`). -/
def validBits (b : Nat) : Prop := 1 ≤ b ∧ b ≤ 8

instance : DecidablePred validBits := fun b => by unfold validBits; infer_instance

namespace RawFile

/-- Big-endian 4-byte encoding, as stored by `DataView.setUint32` (the stored
value is reduced modulo `2^32` by JavaScript's `ToUint32`). -/
def u32be (n : Nat) : List Nat :=
  [n / 2 ^ 24 % 256, n / 2 ^ 16 % 256, n / 2 ^ 8 % 256, n % 256]

/-- Big-endian 4-byte read, as `DataView.getUint32` assembles it. -/
def getUint32 (l : List Nat) (off : Nat) : Nat :=
  l.getD off 0 * 2 ^ 24 + l.getD (off + 1) 0 * 2 ^ 16 +
    l.getD (off + 2) 0 * 2 ^ 8 + l.getD (off + 3) 0

/-- UTF-8 bytes of the decimal digits of `n`. -/
def decimalDigits (n : Nat) : List Nat := (Nat.toDigits 10 n).map Char.toNat

/-- UTF-8 bytes of the default name `file-${size}.file` substituted by the
`RawFile` constructor when the supplied name is empty. -/
def defaultName (size : Nat) : List Nat :=
  [102, 105, 108, 101, 45] ++ decimalDigits size ++ [46, 102, 105, 108, 101]

/-- The `RawFile` constructor's name normalization: an empty (falsy) name is
replaced by `file-${size}.file` where `size = data.byteLength`. -/
def mkName (name : List Nat) (size : Nat) : List Nat :=
  if name.isEmpty then defaultName size else name

/-- `RawFile#createHeader`: `name_len (1) || name || content_len (4, BE)`.
Fails unless the name encodes to 1..255 bytes. -/
def createHeader (name : List Nat) (size : Nat) : Except String (List Nat) :=
  let nsize := name.length
  if nsize < 1 ∨ nsize > 255 then .error "File name must be 1-255 chars"
  else .ok ([nsize % 256] ++ name.map (· % 256) ++ u32be size)

/-- `RawFile#pack` on the constructor-normalized name: `header || data`. -/
def pack (data : List Nat) (name : List Nat) : Except String (List Nat) := do
  let effName := mkName name data.length
  let header ← createHeader effName data.length
  return header ++ data.map (· % 256)

/-- `RawFile#packWithPadding`: zero-extends the packed form to
`requiredLength`; fails when `requiredLength` is less than the packed size. -/
def packWithPadding (data : List Nat) (name : List Nat) (requiredLength : Int) :
    Except String (List Nat) := do
  let packed ← pack data name
  let difference : Int := requiredLength - packed.length
  if difference < 0 then .error "requiredLength is lesser than result"
  else return packed ++ List.replicate difference.toNat 0

/-- `RawFile.fromPacked`: parses `name_len || name || content_len || content`,
ignoring trailing padding.  `view.getUint8(0)` and `view.getUint32` throw a
`RangeError` when they read past the end of the buffer; `subarray` clamps, so
the name and content reads never fail.  The result goes through the `RawFile`
constructor (`mkName`).  Returns `(name, content)`. -/
def fromPacked (packed : List Nat) : Except String (List Nat × List Nat) :=
  if packed.length < 1 then .error "RangeError: offset is outside the bounds"
  else
    let nsize := packed.getD 0 0
    if nsize < 1 then .error "file name must contain at least 1 character"
    else
      let name := (packed.drop 1).take nsize
      if packed.length < 1 + nsize + 4 then
        .error "RangeError: offset is outside the bounds"
      else
        let fsize := getUint32 packed (1 + nsize)
        let content := (packed.drop (1 + nsize + 4)).take fsize
        .ok (mkName name content.length, content)

end RawFile

namespace StegImage

/-- `StegImage#calcCapacity` (the source validates `bitsTaken` first; callers
below check `validBits` before using it).  `len` is the channel-buffer length;
the arithmetic is exact for `len % 4 = 0`, matching the JavaScript number
arithmetic, and `Math.floor` on a possibly negative quotient is `Int.fdiv`. -/
def calcCapacity (len : Int) (bitsTaken : Nat) : Int × Int :=
  let channelsNoFirst := len - 4
  let pixels := channelsNoFirst / 4
  let bits := pixels * 3 * bitsTaken
  (bits, Int.fdiv bits 8)

/-- The mutable cursor state of `hideBlob`: the channel buffer plus the
`channelId` cursor. -/
structure St where
  channels : List Nat
  pos : Nat
  deriving Repr, DecidableEq

/-- `writeChannel(data, bits)` from `hideBlob`: overwrite the low `bits` of
the current channel with `data`, advance; when the new cursor addresses an
alpha channel, store `256` there (which wraps to `0` on a byte buffer) and
advance again. -/
def writeChannel (bits : Nat) (data : Nat) (st : St) : St :=
  let curr := st.channels.getD st.pos 0
  let ch := st.channels.set st.pos ((clearBits curr bits ||| data) % 256)
  let p := st.pos + 1
  if isAlpha p then ⟨ch.set p (256 % 256), p + 1⟩ else ⟨ch, p⟩

/-- The header loop of `hideBlob`:
`while (channelId < 3) writeChannel(readBit(bitsTaken - 1, 8 - 3 + channelId), 1)`. -/
def writeHeaderLoop (bitsTaken : Nat) (st : St) : St :=
  if st.pos < 3 then
    writeHeaderLoop bitsTaken (writeChannel 1 (readBit (bitsTaken - 1) (5 + st.pos)) st)
  else st
termination_by 3 - st.pos
decreasing_by simp only [writeChannel, isAlpha]; split <;> simp_all <;> omega

/-- One payload bit pushed into the `(buf, bufBits)` accumulator; a full
`bitsTaken`-bit chunk is flushed through `writeChannel`. -/
def pushBitStep (bitsTaken : Nat) (acc : St × Nat × Nat) (bit : Nat) : St × Nat × Nat :=
  let buf := (acc.2.1 <<< 1) ||| bit
  let bufBits := acc.2.2 + 1
  if bufBits == bitsTaken then (writeChannel bitsTaken buf acc.1, 0, 0)
  else (acc.1, buf, bufBits)

/-- The payload double loop of `hideBlob`: for every byte of `hData`, push its
eight bits most-significant first. -/
def payloadFold (bitsTaken : Nat) (hData : List Nat) (st : St) : St × Nat × Nat :=
  hData.foldl
    (fun acc byte =>
      (List.range 8).foldl (fun a bit => pushBitStep bitsTaken a (readBit byte bit)) acc)
    (st, 0, 0)

/-- The trailing loop of `hideBlob`:
`while (channelId < channelsLen) writeChannel(getRandomByte() & (2**bitsTaken - 1))`.
`k` is the random-oracle call counter. -/
def trailingLoop (bitsTaken len : Nat) (rnd : Nat → Nat) (k : Nat) (st : St) : St × Nat :=
  if st.pos < len then
    let randomByte := rnd k % 256
    let bitsTakenMask := 2 ^ bitsTaken - 1
    trailingLoop bitsTaken len rnd (k + 1) (writeChannel bitsTaken (randomByte &&& bitsTakenMask) st)
  else (st, k)
termination_by len - st.pos
decreasing_by simp only [writeChannel, isAlpha]; split <;> simp_all <;> omega

/-- The leftover phase of `hideBlob`: when `bufBits ≠ 0`, draw one random byte
and top the accumulator up to a full `bitsTaken`-bit chunk with its bits,
with the two internal consistency checks of the source. -/
def leftoverPhase (bitsTaken : Nat) (randomByte : Nat) (buf bufBits : Nat) :
    Except String (Nat × Nat) := do
  let leftoverBits := bitsTaken - bufBits
  let r ← (List.range leftoverBits).foldlM
    (fun (p : Nat × Nat) i =>
      if i > 7 then .error "StegImage#hideBlob: Need more than 7 random bits"
      else .ok ((p.1 <<< 1) ||| readBit randomByte i, p.2 + 1))
    (buf, bufBits)
  if r.2 != bitsTaken then .error "StegImage#hideBlob: bufBits != bitsTaken"
  else return r

/-- `StegImage#hideBlob` over a raw channel buffer.  The canvas re-encode and
verification steps are the external rendering collaborator and are not part of
the buffer-mutation semantics; the function returns the mutated buffer. -/
def hideBlob (channels : List Nat) (hData : List Nat) (bitsTaken : Nat)
    (rnd : Nat → Nat) : Except String (List Nat) :=
  if ¬ validBits bitsTaken then .error "Bits taken must be gte 1 and lte 8"
  else
    let channelsLen := channels.length
    let cap := (calcCapacity channelsLen bitsTaken).2
    if (hData.length : Int) > cap then .error "StegImage#hideBlob: Cant hide"
    else
      let st1 := writeHeaderLoop bitsTaken ⟨channels, 0⟩
      let acc := payloadFold bitsTaken hData st1
      let afterLeftover : Except String (St × Nat) :=
        if acc.2.2 != 0 then do
          let r ← leftoverPhase bitsTaken (rnd 0 % 256) acc.2.1 acc.2.2
          return (writeChannel bitsTaken r.1 acc.1, 1)
        else .ok (acc.1, 0)
      match afterLeftover with
      | .error e => .error e
      | .ok (st2, k) =>
          let st3 := (trailingLoop bitsTaken channelsLen rnd k st2).1
          if st3.pos ≠ channelsLen then
            .error "StegImage#hideBlob: Current pixel length is different from total capacity"
          else .ok st3.channels

/-- `StegImage#revealBitsTaken` (the pure value; validation split below). -/
def revealBitsTaken (channels : List Nat) : Nat :=
  let bit0 := readBit (channels.getD 0 0) 7 <<< 2
  let bit1 := readBit (channels.getD 1 0) 7 <<< 1
  let bit2 := readBit (channels.getD 2 0) 7
  1 + (bit0 ||| bit1 ||| bit2)

/-- `StegImage#revealBitsTaken` with its trailing `validateBits` call. -/
def revealBitsTakenE (channels : List Nat) : Except String Nat :=
  let bitsTaken := revealBitsTaken channels
  if validBits bitsTaken then .ok bitsTaken
  else .error "Bits taken must be gte 1 and lte 8"

/-- The read loop of `revealBlob`.  `out` has the fixed capacity size; stores
past its end are ignored (`List.set` out of range), matching `Uint8Array`.
Reading `channels[len]` on the final alpha skip yields `undefined`, which
masks to `0`; `List.getD` with default `0` matches that. -/
def revealLoop (channels : List Nat) (len bitsTaken mask : Nat) (channelId : Nat)
    (buf bufBits : Nat) (out : List Nat) (outPos : Nat) : List Nat :=
  if channelId < len then
    let cid := if isAlpha channelId then channelId + 1 else channelId
    let buf' := (buf <<< bitsTaken) ||| (channels.getD cid 0 &&& mask)
    let bufBits' := bufBits + bitsTaken
    if 8 ≤ bufBits' then
      let leftBits := bufBits' - 8
      revealLoop channels len bitsTaken mask (cid + 1) (buf' &&& (2 ^ leftBits - 1)) leftBits
        (out.set outPos ((buf' >>> leftBits) % 256)) (outPos + 1)
    else revealLoop channels len bitsTaken mask (cid + 1) buf' bufBits' out outPos
  else out
termination_by len - channelId
decreasing_by all_goals (simp only [isAlpha] at *; split <;> omega)

/-- `StegImage#revealBlob`.  `new Uint8Array(bytes)` throws a `RangeError`
when the computed capacity is negative (only possible on an empty buffer). -/
def revealBlob (channels : List Nat) : Except String (List Nat) := do
  let bitsTaken ← revealBitsTakenE channels
  let bytes := (calcCapacity channels.length bitsTaken).2
  if bytes < 0 then .error "RangeError: invalid typed array length"
  else
    let mask := 2 ^ bitsTaken - 1
    return revealLoop channels channels.length bitsTaken mask 4 0 0
      (List.replicate bytes.toNat 0) 0

/-- `StegImage#hide`: capacity, pack with padding to `capacity - 28`, encrypt,
check the ciphertext length invariant, then `hideBlob`.  `enc` is the external
AES-GCM provider applied to the key. -/
def hide (channels : List Nat) (data name : List Nat) (key : List Nat)
    (enc : List Nat → List Nat → List Nat) (bitsTaken : Nat) (rnd : Nat → Nat) :
    Except String (List Nat) := do
  if ¬ validBits bitsTaken then .error "Bits taken must be gte 1 and lte 8"
  else
    let capacity := (calcCapacity channels.length bitsTaken).2
    let packed ← RawFile.packWithPadding data name (capacity - 28)
    let ciphertext := enc key packed
    if (ciphertext.length : Int) ≠ capacity then
      .error "Encrypted blob must be equal to total data length"
    else hideBlob channels ciphertext bitsTaken rnd

/-- `StegImage#reveal`: read the blob, decrypt, unpack.  `dec` is the external
AES-GCM decryption applied to the key. -/
def reveal (channels : List Nat) (key : List Nat)
    (dec : List Nat → List Nat → List Nat) : Except String (List Nat × List Nat) := do
  let ciphertext ← revealBlob channels
  let packed := dec key ciphertext
  RawFile.fromPacked packed

/-! Specification-level views of the codec, used to state and prove the
properties of the loops above.  These are not part of the embedding of the
source; each is related to the corresponding loop by a proved lemma. -/

/-- The cursor advance performed by one `writeChannel` call. -/
def nextPos (p : Nat) : Nat := if (p + 1) % 4 == 3 then p + 2 else p + 1

/-- How many `writeChannel` calls fit between cursor `p` and the end of a
buffer of length `len`. -/
def slots (p len : Nat) : Nat :=
  if p < len then slots (nextPos p) len + 1 else 0
termination_by len - p
decreasing_by simp only [nextPos] at *; split <;> omega

/-- The values written by the trailing random-fill loop, as a list. -/
def trailingVals (bitsTaken len : Nat) (rnd : Nat → Nat) (k : Nat) (p : Nat) : List Nat :=
  if p < len then
    (rnd k % 256 &&& (2 ^ bitsTaken - 1)) :: trailingVals bitsTaken len rnd (k + 1) (nextPos p)
  else []
termination_by len - p
decreasing_by simp only [nextPos] at *; split <;> omega

/-- The sequence of masked channel values consumed by the `revealBlob` loop
starting from cursor `cid` (including the final out-of-range read that the
source performs when the alpha skip lands on `len`). -/
def readValsAux (channels : List Nat) (len mask : Nat) (cid : Nat) : List Nat :=
  if cid < len then
    let c := if isAlpha cid then cid + 1 else cid
    (channels.getD c 0 &&& mask) :: readValsAux channels len mask (c + 1)
  else []
termination_by len - cid
decreasing_by simp only [isAlpha] at *; split <;> omega

/-- One `revealBlob` accumulation step, on `(out, outPos, buf, bufBits)`. -/
def readStep (bitsTaken : Nat) (acc : List Nat × Nat × Nat × Nat) (v : Nat) :
    List Nat × Nat × Nat × Nat :=
  let buf' := (acc.2.2.1 <<< bitsTaken) ||| v
  let bufBits' := acc.2.2.2 + bitsTaken
  if 8 ≤ bufBits' then
    let leftBits := bufBits' - 8
    (acc.1.set acc.2.1 ((buf' >>> leftBits) % 256), acc.2.1 + 1,
      buf' &&& (2 ^ leftBits - 1), leftBits)
  else (acc.1, acc.2.1, buf', bufBits')

/-- Successive in-place stores of `bytes` into `out` starting at `pos`. -/
def setFold (out : List Nat) (pos : Nat) (bytes : List Nat) : List Nat × Nat :=
  bytes.foldl (fun a byte => (a.1.set a.2 byte, a.2 + 1)) (out, pos)

/-- Folding a list of channel values through `writeChannel`. -/
def writeChunks (bits : Nat) (vs : List Nat) (st : St) : St :=
  vs.foldl (fun s v => writeChannel bits v s) st

end StegImage

/-- The value of a bit list read most-significant bit first. -/
def bitsVal (l : List Nat) : Nat := l.foldl (fun a bit => (a <<< 1) ||| bit) 0

/-- The `width` low bits of `v`, most-significant first. -/
def bitsOfVal (width v : Nat) : List Nat :=
  (List.range width).map (fun i => (v >>> (width - 1 - i)) &&& 1)

/-- The eight bits of a byte, most-significant first, as `hideBlob` reads
them with `readBit`. -/
def byteBits (x : Nat) : List Nat := (List.range 8).map (readBit x)

/-- The bit stream of a byte list, most-significant bit of each byte first. -/
def bitsOfBytes : List Nat → List Nat
  | [] => []
  | x :: xs => byteBits x ++ bitsOfBytes xs

/-- The concatenated `width`-bit representations of a list of values. -/
def valsBits (width : Nat) : List Nat → List Nat
  | [] => []
  | v :: vs => bitsOfVal width v ++ valsBits width vs

/-- Splits a list into maximal groups of `k` elements plus a remainder of
length `< k`. -/
def splitChunks (k : Nat) (l : List Nat) : List (List Nat) × List Nat :=
  if _h : 0 < k ∧ k ≤ l.length then
    let r := splitChunks k (l.drop k)
    (l.take k :: r.1, r.2)
  else ([], l)
termination_by l.length
decreasing_by simp only [List.length_drop]; omega

/-- Concatenation of a list of lists. -/
def joinL : List (List Nat) → List Nat
  | [] => []
  | c :: cs => c ++ joinL cs

/-! ### Bit-arithmetic lemmas -/

theorem lor_shl_eq_add (a v k : Nat) (hv : v < 2 ^ k) :
    (a <<< k) ||| v = a * 2 ^ k + v := by
  rw [Nat.shiftLeft_eq, Nat.mul_comm a (2 ^ k), ← Nat.mul_add_lt_is_or hv a]

theorem shl1_lor (a bit : Nat) (h : bit < 2) : (a <<< 1) ||| bit = 2 * a + bit := by
  have h2 : bit < 2 ^ 1 := by simpa using h
  rw [lor_shl_eq_add a bit 1 h2]; ring

theorem readBit_lt_two (byte pos : Nat) : readBit byte pos < 2 := by
  simp only [readBit, Nat.and_one_is_mod]
  exact Nat.mod_lt _ (by omega)

/-! ### `bitsVal` and `bitsOfVal` -/

theorem bitsVal_nil : bitsVal [] = 0 := rfl

theorem bitsVal_foldl (l : List Nat) (h : ∀ x ∈ l, x < 2) (a : Nat) :
    l.foldl (fun a bit => (a <<< 1) ||| bit) a = a * 2 ^ l.length + bitsVal l := by
  induction l generalizing a with
  | nil => simp [bitsVal]
  | cons x xs ih =>
    have hx : x < 2 := h x (by simp)
    have hxs : ∀ y ∈ xs, y < 2 := fun y hy => h y (by simp [hy])
    have hv : bitsVal (x :: xs) = x * 2 ^ xs.length + bitsVal xs := by
      simp only [bitsVal, List.foldl_cons]
      rw [show ((0 : Nat) <<< 1) ||| x = x by rw [shl1_lor 0 x hx]; ring]
      exact ih hxs x
    simp only [List.foldl_cons, List.length_cons]
    rw [ih hxs, shl1_lor a x hx, hv]
    ring

theorem bitsVal_cons (x : Nat) (xs : List Nat) (h : ∀ y ∈ xs, y < 2) (hx : x < 2) :
    bitsVal (x :: xs) = x * 2 ^ xs.length + bitsVal xs := by
  simp only [bitsVal, List.foldl_cons]
  rw [show ((0 : Nat) <<< 1) ||| x = x by rw [shl1_lor 0 x hx]; ring]
  exact bitsVal_foldl xs h x

theorem bitsVal_lt (l : List Nat) (h : ∀ x ∈ l, x < 2) :
    bitsVal l < 2 ^ l.length := by
  induction l with
  | nil => simp [bitsVal]
  | cons x xs ih =>
    have hx : x < 2 := h x (by simp)
    have hxs : ∀ y ∈ xs, y < 2 := fun y hy => h y (by simp [hy])
    rw [bitsVal_cons x xs hxs hx]
    have h1 : bitsVal xs < 2 ^ xs.length := ih hxs
    have h2 : 2 ^ (xs.length + 1) = 2 * 2 ^ xs.length := by ring
    simp only [List.length_cons, h2]
    have : x * 2 ^ xs.length ≤ 1 * 2 ^ xs.length :=
      Nat.mul_le_mul_right _ (by omega)
    omega

theorem bitsVal_append (l₁ l₂ : List Nat) (h₂ : ∀ x ∈ l₂, x < 2) :
    bitsVal (l₁ ++ l₂) = bitsVal l₁ * 2 ^ l₂.length + bitsVal l₂ := by
  simp only [bitsVal, List.foldl_append]
  exact bitsVal_foldl l₂ h₂ _

theorem bitsOfVal_length (w v : Nat) : (bitsOfVal w v).length = w := by
  simp [bitsOfVal]

theorem bitsOfVal_mem_lt (w v : Nat) : ∀ x ∈ bitsOfVal w v, x < 2 := by
  intro x hx
  simp only [bitsOfVal, List.mem_map] at hx
  obtain ⟨i, -, rfl⟩ := hx
  simp only [Nat.and_one_is_mod]
  exact Nat.mod_lt _ (by omega)

theorem bitsOfVal_succ (w v : Nat) :
    bitsOfVal (w + 1) v = ((v >>> w) &&& 1) :: bitsOfVal w v := by
  simp only [bitsOfVal, List.range_succ_eq_map, List.map_cons, List.map_map]
  congr 1
  apply List.map_congr_left
  intro a ha
  simp only [Function.comp_apply, Nat.succ_eq_add_one]
  have h : w + 1 - 1 - (a + 1) = w - 1 - a := by omega
  rw [h]

theorem bitsVal_bitsOfVal (w v : Nat) : bitsVal (bitsOfVal w v) = v % 2 ^ w := by
  induction w with
  | zero => simp [bitsOfVal, bitsVal, Nat.mod_one]
  | succ w ih =>
    rw [bitsOfVal_succ,
      bitsVal_cons _ _ (bitsOfVal_mem_lt w v)
        (by simp only [Nat.and_one_is_mod]; exact Nat.mod_lt _ (by omega)),
      bitsOfVal_length, ih, Nat.and_one_is_mod, Nat.shiftRight_eq_div_pow,
      pow_succ, Nat.mod_mul]
    ring

theorem bitsOfVal_add_mul_pow (w a v : Nat) :
    bitsOfVal w (a * 2 ^ w + v) = bitsOfVal w v := by
  simp only [bitsOfVal]
  apply List.map_congr_left
  intro i hi
  simp only [List.mem_range] at hi
  have hkw : w - 1 - i < w := by omega
  set k := w - 1 - i with hk
  have h2 : (2 : Nat) ^ w = 2 ^ k * 2 ^ (w - k) := by
    rw [← pow_add]; congr 1; omega
  have hsplit : a * 2 ^ w + v = 2 ^ k * (a * 2 ^ (w - k)) + v := by rw [h2]; ring
  rw [Nat.shiftRight_eq_div_pow, Nat.shiftRight_eq_div_pow, hsplit,
    Nat.mul_add_div (Nat.two_pow_pos k)]
  obtain ⟨m, hm⟩ : ∃ m, w - k = m + 1 := ⟨w - k - 1, by omega⟩
  rw [Nat.and_one_is_mod, Nat.and_one_is_mod, hm, pow_succ,
    show a * (2 ^ m * 2) + v / 2 ^ k = 2 * (a * 2 ^ m) + v / 2 ^ k by ring,
    Nat.mul_add_mod]

theorem bitsOfVal_bitsVal (l : List Nat) (h : ∀ x ∈ l, x < 2) :
    bitsOfVal l.length (bitsVal l) = l := by
  induction l with
  | nil => simp [bitsOfVal, bitsVal]
  | cons x xs ih =>
    have hx : x < 2 := h x (by simp)
    have hxs : ∀ y ∈ xs, y < 2 := fun y hy => h y (by simp [hy])
    have hw : bitsVal xs < 2 ^ xs.length := bitsVal_lt xs hxs
    rw [List.length_cons, bitsOfVal_succ, bitsVal_cons x xs hxs hx]
    have hdiv : (x * 2 ^ xs.length + bitsVal xs) >>> xs.length = x := by
      rw [Nat.shiftRight_eq_div_pow,
        show x * 2 ^ xs.length + bitsVal xs = 2 ^ xs.length * x + bitsVal xs by ring,
        Nat.mul_add_div (Nat.two_pow_pos _), Nat.div_eq_of_lt hw]
      omega
    rw [hdiv, Nat.and_one_is_mod, Nat.mod_eq_of_lt hx, bitsOfVal_add_mul_pow, ih hxs]


/-! ### `byteBits` and `bitsOfBytes` -/

theorem byteBits_eq_bitsOfVal (x : Nat) : byteBits x = bitsOfVal 8 x := by
  simp only [byteBits, bitsOfVal, readBit]
  apply List.map_congr_left
  intro a ha
  have h : (8 : Nat) - 1 - a = 7 - a := by omega
  rw [h]
  rfl

theorem byteBits_length (x : Nat) : (byteBits x).length = 8 := by simp [byteBits]

theorem byteBits_mem_lt (x : Nat) : ∀ y ∈ byteBits x, y < 2 := by
  rw [byteBits_eq_bitsOfVal]; exact bitsOfVal_mem_lt 8 x

theorem bitsVal_byteBits (x : Nat) : bitsVal (byteBits x) = x % 256 := by
  rw [byteBits_eq_bitsOfVal, bitsVal_bitsOfVal]; norm_num

theorem bitsOfBytes_length (l : List Nat) : (bitsOfBytes l).length = 8 * l.length := by
  induction l with
  | nil => simp [bitsOfBytes]
  | cons x xs ih =>
    simp only [bitsOfBytes, List.length_append, byteBits_length, ih, List.length_cons]
    ring

theorem bitsOfBytes_mem_lt (l : List Nat) : ∀ x ∈ bitsOfBytes l, x < 2 := by
  induction l with
  | nil => simp [bitsOfBytes]
  | cons x xs ih =>
    intro y hy
    simp only [bitsOfBytes, List.mem_append] at hy
    rcases hy with hy | hy
    · exact byteBits_mem_lt x y hy
    · exact ih y hy

theorem bitsOfBytes_append (l₁ l₂ : List Nat) :
    bitsOfBytes (l₁ ++ l₂) = bitsOfBytes l₁ ++ bitsOfBytes l₂ := by
  induction l₁ with
  | nil => simp [bitsOfBytes]
  | cons x xs ih => simp [bitsOfBytes, ih]

/-! ### `valsBits` -/

theorem valsBits_append (w : Nat) (l₁ l₂ : List Nat) :
    valsBits w (l₁ ++ l₂) = valsBits w l₁ ++ valsBits w l₂ := by
  induction l₁ with
  | nil => simp [valsBits]
  | cons x xs ih => simp [valsBits, ih]

theorem valsBits_mem_lt (w : Nat) (l : List Nat) : ∀ x ∈ valsBits w l, x < 2 := by
  induction l with
  | nil => simp [valsBits]
  | cons v vs ih =>
    intro y hy
    simp only [valsBits, List.mem_append] at hy
    rcases hy with hy | hy
    · exact bitsOfVal_mem_lt w v y hy
    · exact ih y hy

/-! ### `splitChunks` -/

theorem splitChunks_small (k : Nat) (l : List Nat) (h : l.length < k) :
    splitChunks k l = ([], l) := by
  rw [splitChunks, dif_neg (by omega : ¬(0 < k ∧ k ≤ l.length))]

theorem splitChunks_chunk (k : Nat) (c l : List Nat) (hc : c.length = k) (hk : 0 < k) :
    splitChunks k (c ++ l) = ((c :: (splitChunks k l).1, (splitChunks k l).2)) := by
  rw [splitChunks, dif_pos ⟨hk, by simp [hc]⟩]
  rw [List.take_left' hc, List.drop_left' hc]

theorem splitChunks_join (k : Nat) (l : List Nat) :
    joinL (splitChunks k l).1 ++ (splitChunks k l).2 = l := by
  induction l using splitChunks.induct k with
  | case1 x hx ih =>
    rw [splitChunks, dif_pos hx]
    simp only [joinL]
    rw [List.append_assoc, ih, List.take_append_drop]
  | case2 x hx =>
    rw [splitChunks, dif_neg hx]
    simp [joinL]

theorem splitChunks_num_len (k : Nat) (l : List Nat) (hk : 0 < k) :
    (splitChunks k l).1.length = l.length / k ∧
      (splitChunks k l).2.length = l.length % k := by
  induction l using splitChunks.induct k with
  | case1 x hx ih =>
    rw [splitChunks, dif_pos hx]
    simp only [List.length_cons]
    have hd : (List.drop k x).length = x.length - k := by simp
    rw [hd] at ih
    refine ⟨?_, ?_⟩
    · rw [Nat.div_eq x.length k, if_pos hx, ih.1]
    · rw [Nat.mod_eq x.length k, if_pos hx, ih.2]
  | case2 x hx =>
    rw [splitChunks, dif_neg hx]
    have hlt : x.length < k := by omega
    simp [Nat.div_eq_of_lt hlt, Nat.mod_eq_of_lt hlt]

theorem splitChunks_chunk_spec (k : Nat) (l : List Nat) :
    ∀ c ∈ (splitChunks k l).1, c.length = k ∧ ∀ x ∈ c, x ∈ l := by
  induction l using splitChunks.induct k with
  | case1 x hx ih =>
    rw [splitChunks, dif_pos hx]
    intro c hc
    simp only [List.mem_cons] at hc
    rcases hc with rfl | hc
    · exact ⟨by simp [List.length_take]; omega, fun y hy => List.mem_of_mem_take hy⟩
    · obtain ⟨h1, h2⟩ := ih c hc
      exact ⟨h1, fun y hy => List.mem_of_mem_drop (h2 y hy)⟩
  | case2 x hx =>
    rw [splitChunks, dif_neg hx]
    simp

theorem splitChunks_rem_spec (k : Nat) (l : List Nat) :
    ∀ x ∈ (splitChunks k l).2, x ∈ l := by
  induction l using splitChunks.induct k with
  | case1 x hx ih =>
    rw [splitChunks, dif_pos hx]
    intro y hy
    exact List.mem_of_mem_drop (ih y hy)
  | case2 x hx =>
    rw [splitChunks, dif_neg hx]
    simp

theorem splitChunks_bitsOfBytes (l : List Nat) :
    splitChunks 8 (bitsOfBytes l) = (l.map byteBits, []) := by
  induction l with
  | nil => simp [bitsOfBytes, splitChunks_small 8 [] (by simp)]
  | cons x xs ih =>
    simp only [bitsOfBytes, List.map_cons]
    rw [splitChunks_chunk 8 _ _ (byteBits_length x) (by omega), ih]

/-! ### `RawFile` (FilePacker) lemmas -/

namespace RawFile

theorem getUint32_eq_drop (l : List Nat) (off : Nat) :
    getUint32 l off = getUint32 (l.drop off) 0 := by
  simp [getUint32, List.getD_eq_getElem?_getD, List.getElem?_drop]

theorem getUint32_u32be_prefix (n : Nat) (t : List Nat) (h : n < 2 ^ 32) :
    getUint32 (u32be n ++ t) 0 = n := by
  simp only [u32be, List.cons_append, List.nil_append, getUint32,
    List.getD_cons_zero, List.getD_cons_succ]
  omega

theorem mkName_of_ne_nil (name : List Nat) (size : Nat) (h : name ≠ []) :
    mkName name size = name := by
  simp [mkName, List.isEmpty_iff, h]

theorem pack_ok (data name : List Nat) (h1 : 1 ≤ name.length) (h255 : name.length ≤ 255) :
    pack data name =
      .ok (([name.length % 256] ++ name.map (· % 256) ++ u32be data.length) ++
        data.map (· % 256)) := by
  have hne : name ≠ [] := by
    intro h; subst h; simp at h1
  unfold pack
  rw [mkName_of_ne_nil name data.length hne]
  unfold createHeader
  simp only []
  rw [if_neg (by omega)]
  rfl

theorem pack_err (data name : List Nat) (h255 : 255 < name.length) :
    pack data name = .error "File name must be 1-255 chars" := by
  have hne : name ≠ [] := by
    intro h; subst h; simp at h255
  unfold pack
  rw [mkName_of_ne_nil name data.length hne]
  unfold createHeader
  simp only []
  rw [if_pos (by omega)]
  rfl

theorem fromPacked_pack (data name : List Nat) (pad : Nat)
    (h1 : 1 ≤ name.length) (h255 : name.length ≤ 255)
    (hname : ∀ x ∈ name, x < 256) (hdata : ∀ x ∈ data, x < 256)
    (hlen : data.length < 2 ^ 32) :
    fromPacked
      ((([name.length % 256] ++ name.map (· % 256) ++ u32be data.length) ++
        data.map (· % 256)) ++ List.replicate pad 0) = .ok (name, data) := by
  have hnm : name.length % 256 = name.length := Nat.mod_eq_of_lt (by omega)
  have hmapn : name.map (· % 256) = name := by
    rw [show name.map (· % 256) = name.map id from
      List.map_congr_left fun x hx => Nat.mod_eq_of_lt (hname x hx), List.map_id]
  have hmapd : data.map (· % 256) = data := by
    rw [show data.map (· % 256) = data.map id from
      List.map_congr_left fun x hx => Nat.mod_eq_of_lt (hdata x hx), List.map_id]
  rw [hnm, hmapn, hmapd]
  set P := (([name.length] ++ name ++ u32be data.length) ++ data) ++
    List.replicate pad 0 with hP
  have hPlen : P.length = 1 + name.length + 4 + data.length + pad := by
    simp [hP, u32be]; omega
  have hgd0 : P.getD 0 0 = name.length := by
    simp only [hP, List.append_assoc, List.cons_append, List.nil_append,
      List.getD_cons_zero]
  unfold fromPacked
  rw [if_neg (by omega)]
  simp only [hgd0]
  rw [if_neg (by omega)]
  have hdrop1 : P.drop 1 = name ++ (u32be data.length ++ (data ++ List.replicate pad 0)) := by
    simp [hP, List.append_assoc]
  have hnameExtract : (P.drop 1).take name.length = name := by
    rw [hdrop1, List.take_left' rfl]
  rw [hnameExtract]
  rw [if_neg (by omega)]
  have hdropU : P.drop (1 + name.length) = u32be data.length ++ (data ++ List.replicate pad 0) := by
    have : P = ([name.length] ++ name) ++ (u32be data.length ++ (data ++ List.replicate pad 0)) := by
      simp [hP, List.append_assoc]
    rw [this, List.drop_left' (by simp; omega)]
  have hfsize : getUint32 P (1 + name.length) = data.length := by
    rw [getUint32_eq_drop, hdropU, getUint32_u32be_prefix _ _ hlen]
  rw [hfsize]
  have hdropC : P.drop (1 + name.length + 4) = data ++ List.replicate pad 0 := by
    have : P = (([name.length] ++ name) ++ u32be data.length) ++ (data ++ List.replicate pad 0) := by
      simp [hP, List.append_assoc]
    rw [this, List.drop_left' (by simp [u32be]; omega)]
  rw [hdropC, List.take_left' rfl]
  rw [mkName_of_ne_nil name data.length (by intro h; subst h; simp at h1)]

theorem fromPacked_ok_iff (packed : List Nat) :
    (∃ r, fromPacked packed = .ok r) ↔
      1 ≤ packed.getD 0 0 ∧ packed.getD 0 0 + 5 ≤ packed.length := by
  unfold fromPacked
  by_cases h1 : packed.length < 1
  · have : packed = [] := List.eq_nil_of_length_eq_zero (by omega)
    subst this
    simp
  · rw [if_neg h1]
    by_cases h2 : packed.getD 0 0 < 1
    · rw [if_pos h2]
      constructor
      · rintro ⟨r, hr⟩; simp at hr
      · intro h; omega
    · rw [if_neg h2]
      by_cases h3 : packed.length < 1 + packed.getD 0 0 + 4
      · rw [if_pos h3]
        constructor
        · rintro ⟨r, hr⟩; simp at hr
        · intro h; omega
      · rw [if_neg h3]
        constructor
        · intro _; omega
        · intro _; exact ⟨_, rfl⟩

end RawFile

/-! ### Claim theorems: FilePacker and CapacityModel -/

/-- C2: for every channel-buffer length `L` that is a multiple of 4 and every
`bitsTaken` in 1..8, `calcCapacity` returns `bits = ((L-4)/4)*3*b` with the
division exact, and `bytes = ⌊bits/8⌋` (characterized as the unique integer
with `8*bytes ≤ bits < 8*bytes + 8`); in particular `L=16, b=1 ↦ {bits 9,
bytes 1}` and `L=16, b=8 ↦ {bits 72, bytes 9}`. -/
theorem claimC2_calcCapacity (L : Int) (b : Nat) (hL : L % 4 = 0) (_hb : validBits b) :
    (StegImage.calcCapacity L b).1 = (L - 4) / 4 * 3 * b ∧
    4 * ((L - 4) / 4) = L - 4 ∧
    8 * (StegImage.calcCapacity L b).2 ≤ (StegImage.calcCapacity L b).1 ∧
    (StegImage.calcCapacity L b).1 < 8 * (StegImage.calcCapacity L b).2 + 8 ∧
    StegImage.calcCapacity 16 1 = (9, 1) ∧
    StegImage.calcCapacity 16 8 = (72, 9) := by
  refine ⟨rfl, ?_, ?_, ?_, by decide, by decide⟩
  · have h4 : (L - 4) % 4 = 0 := by omega
    have : (4 : Int) ∣ (L - 4) := Int.dvd_of_emod_eq_zero h4
    exact Int.mul_ediv_cancel' this
  · have h8 : (0 : Int) ≤ 8 := by omega
    rw [show (StegImage.calcCapacity L b).2 =
        Int.fdiv (StegImage.calcCapacity L b).1 8 from rfl,
      Int.fdiv_eq_ediv _ h8]
    have := Int.emod_nonneg (StegImage.calcCapacity L b).1 (by omega : (8 : Int) ≠ 0)
    have := Int.ediv_add_emod (StegImage.calcCapacity L b).1 8
    omega
  · have h8 : (0 : Int) ≤ 8 := by omega
    rw [show (StegImage.calcCapacity L b).2 =
        Int.fdiv (StegImage.calcCapacity L b).1 8 from rfl,
      Int.fdiv_eq_ediv _ h8]
    have := Int.emod_lt_of_pos (StegImage.calcCapacity L b).1 (by omega : (0 : Int) < 8)
    have := Int.ediv_add_emod (StegImage.calcCapacity L b).1 8
    omega

/-- Witness for C2 at `L = 16`, `b = 1`. -/
theorem claimC2_calcCapacity_witness :
    (StegImage.calcCapacity 16 1).1 = (16 - 4) / 4 * 3 * 1 ∧
    4 * (((16 : Int) - 4) / 4) = 16 - 4 ∧
    8 * (StegImage.calcCapacity 16 1).2 ≤ (StegImage.calcCapacity 16 1).1 ∧
    (StegImage.calcCapacity 16 1).1 < 8 * (StegImage.calcCapacity 16 1).2 + 8 ∧
    StegImage.calcCapacity 16 1 = (9, 1) ∧
    StegImage.calcCapacity 16 8 = (72, 9) :=
  claimC2_calcCapacity 16 1 (by decide) (by decide)

/-- C3 counterexample: a buffer whose header announces `content_len = 10`
while only `0` content bytes are present (`name_len + 5 + content_len = 16 >
6 = length`).  The claim says `fromPacked` fails here; it in fact succeeds,
because `subarray` clamps and returns the truncated (empty) content. -/
theorem claimC3_counterexample :
    RawFile.fromPacked [1, 65, 0, 0, 0, 10] = .ok ([65], []) ∧
    [1, 65, 0, 0, 0, 10].length < 1 + 5 + 10 := by
  constructor
  · rfl
  · decide

/-- C3 amended: `fromPacked` fails exactly when `name_len = 0` (including the
empty buffer, where the `name_len` read itself throws) or when
`name_len + 5` exceeds the buffer length (the `content_len` read throws);
an over-long `content_len` alone does not fail — the content is truncated
to the bytes present. -/
theorem claimC3_unpack_error_conditions (packed : List Nat) :
    (∃ r, RawFile.fromPacked packed = .ok r) ↔
      1 ≤ packed.getD 0 0 ∧ packed.getD 0 0 + 5 ≤ packed.length :=
  RawFile.fromPacked_ok_iff packed

/-- C4: `unpack (pack name content) = (name, content)` for valid names
(1..255 bytes) and any byte content shorter than `2^32`, and the same holds
for the zero-padded form produced by `packWithPadding` at any accepted
`requiredLength`, since trailing padding is ignored. -/
theorem claimC4_pack_unpack_roundtrip (name content : List Nat)
    (h1 : 1 ≤ name.length) (h255 : name.length ≤ 255)
    (hname : ∀ x ∈ name, x < 256) (hcontent : ∀ x ∈ content, x < 256)
    (hlen : content.length < 2 ^ 32) :
    (∃ packed, RawFile.pack content name = .ok packed ∧
      RawFile.fromPacked packed = .ok (name, content)) ∧
    (∀ req : Int, ∀ padded, RawFile.packWithPadding content name req = .ok padded →
      RawFile.fromPacked padded = .ok (name, content)) := by
  have hpack := RawFile.pack_ok content name h1 h255
  constructor
  · refine ⟨_, hpack, ?_⟩
    have h := RawFile.fromPacked_pack content name 0 h1 h255 hname hcontent hlen
    simpa using h
  · intro req padded hp
    unfold RawFile.packWithPadding at hp
    rw [hpack] at hp
    simp only [bind, Except.bind] at hp
    split at hp
    case _ hc => exact absurd hp (by simp)
    case _ hc =>
      simp only [pure, Except.pure, Except.ok.injEq] at hp
      subst hp
      exact RawFile.fromPacked_pack content name _ h1 h255 hname hcontent hlen

/-- Witness for C4 at `name = "a"`, `content = [1, 2, 3]`. -/
theorem claimC4_pack_unpack_roundtrip_witness :
    ∃ packed, RawFile.pack [1, 2, 3] [97] = .ok packed ∧
      RawFile.fromPacked packed = .ok ([97], [1, 2, 3]) :=
  (claimC4_pack_unpack_roundtrip [97] [1, 2, 3] (by decide) (by decide)
    (by decide) (by decide) (by decide)).1

/-- C5 counterexample: `pack` with an empty name succeeds — the `RawFile`
constructor replaces a falsy name with `file-${size}.file` before
`createHeader` can reject it — contradicting the claim that it fails with
`InvalidName` whenever the name is empty. -/
theorem claimC5_counterexample :
    RawFile.pack [] [] =
      .ok [11, 102, 105, 108, 101, 45, 48, 46, 102, 105, 108, 101, 0, 0, 0, 0] := by
  rfl

/-- C5 amended: `pack` fails with `InvalidName` exactly when the effective
name exceeds 255 UTF-8 bytes; an empty supplied name is replaced by the
default `file-${size}.file` by the constructor (see the counterexample), so
emptiness never causes a failure.  For 1..255-byte names it succeeds and the
output size is `1 + name_len + 4 + content_len`. -/
theorem claimC5_pack_name_validation (name content : List Nat) :
    (255 < name.length → RawFile.pack content name = .error "File name must be 1-255 chars") ∧
    (1 ≤ name.length → name.length ≤ 255 →
      ∃ out, RawFile.pack content name = .ok out ∧
        out.length = 1 + name.length + 4 + content.length) := by
  constructor
  · intro h255
    exact RawFile.pack_err content name h255
  · intro h1 h255
    refine ⟨_, RawFile.pack_ok content name h1 h255, ?_⟩
    simp [RawFile.u32be]
    omega

/-- Witness for C5 at `name = "a"` (success side) and a 256-byte name
(failure side). -/
theorem claimC5_pack_name_validation_witness :
    (255 < (List.replicate 256 97).length →
      RawFile.pack [] (List.replicate 256 97) = .error "File name must be 1-255 chars") ∧
    (1 ≤ [97].length → [97].length ≤ 255 →
      ∃ out, RawFile.pack [5] [97] = .ok out ∧ out.length = 1 + [97].length + 4 + [5].length) :=
  ⟨(claimC5_pack_name_validation (List.replicate 256 97) []).1,
    (claimC5_pack_name_validation [97] [5]).2⟩

/-! ### Claim theorems: header reading -/

/-- C8: the result of `revealBitsTaken` depends only on channels 0, 1 and 2:
any two buffers agreeing there yield the same value, so mutating any channel
with index ≥ 3 never changes the recovered `bitsTaken`. -/
theorem claimC8_header_independence (ch1 ch2 : List Nat)
    (h0 : ch1.getD 0 0 = ch2.getD 0 0) (h1 : ch1.getD 1 0 = ch2.getD 1 0)
    (h2 : ch1.getD 2 0 = ch2.getD 2 0) :
    StegImage.revealBitsTaken ch1 = StegImage.revealBitsTaken ch2 := by
  simp only [StegImage.revealBitsTaken, h0, h1, h2]

/-- Witness for C8: two buffers agreeing on channels 0..2 but differing from
channel 3 on. -/
theorem claimC8_header_independence_witness :
    StegImage.revealBitsTaken [1, 0, 1, 0] = StegImage.revealBitsTaken [1, 0, 1, 77, 255] :=
  claimC8_header_independence [1, 0, 1, 0] [1, 0, 1, 77, 255] (by decide) (by decide) (by decide)

/-- C10: on every channel buffer whatsoever, `revealBitsTaken` returns
`1 + (3-bit value)`, hence a value in `[1, 8]`, and the `validateBits` check
it runs can never fire: `revealBitsTakenE` always succeeds. -/
theorem claimC10_revealBitsTaken_total (ch : List Nat) :
    1 ≤ StegImage.revealBitsTaken ch ∧ StegImage.revealBitsTaken ch ≤ 8 ∧
    StegImage.revealBitsTakenE ch = .ok (StegImage.revealBitsTaken ch) := by
  have hb0 : readBit (ch.getD 0 0) 7 <<< 2 < 2 ^ 3 := by
    have := readBit_lt_two (ch.getD 0 0) 7
    rw [Nat.shiftLeft_eq]
    omega
  have hb1 : readBit (ch.getD 1 0) 7 <<< 1 < 2 ^ 3 := by
    have := readBit_lt_two (ch.getD 1 0) 7
    rw [Nat.shiftLeft_eq]
    omega
  have hb2 : readBit (ch.getD 2 0) 7 < 2 ^ 3 := by
    have := readBit_lt_two (ch.getD 2 0) 7
    omega
  have hor : readBit (ch.getD 0 0) 7 <<< 2 ||| readBit (ch.getD 1 0) 7 <<< 1 |||
      readBit (ch.getD 2 0) 7 < 2 ^ 3 :=
    Nat.or_lt_two_pow (Nat.or_lt_two_pow hb0 hb1) hb2
  have h8 : (2 : Nat) ^ 3 = 8 := by norm_num
  rw [h8] at hor
  have hval : 1 ≤ StegImage.revealBitsTaken ch ∧ StegImage.revealBitsTaken ch ≤ 8 := by
    simp only [StegImage.revealBitsTaken]
    omega
  refine ⟨hval.1, hval.2, ?_⟩
  simp only [StegImage.revealBitsTakenE]
  rw [if_pos (show validBits (StegImage.revealBitsTaken ch) from ⟨hval.1, hval.2⟩)]

/-- `packWithPadding` fails when the required length is below the packed
size. -/
theorem RawFile.packWithPadding_err (data name : List Nat) (req : Int)
    (h1 : 1 ≤ name.length) (h255 : name.length ≤ 255)
    (hreq : req < 1 + name.length + 4 + data.length) :
    RawFile.packWithPadding data name req =
      .error "requiredLength is lesser than result" := by
  have hlen : ((([name.length % 256] ++ name.map (· % 256) ++
      RawFile.u32be data.length) ++ data.map (· % 256)) : List Nat).length =
      1 + name.length + 4 + data.length := by
    simp [RawFile.u32be]
    omega
  unfold RawFile.packWithPadding
  rw [RawFile.pack_ok data name h1 h255]
  simp only [bind, Except.bind]
  split
  · rfl
  case _ hcond =>
    exfalso
    rw [hlen] at hcond
    push_cast at hcond
    omega

/-! ### Claim theorem: oversize rejection (C6) -/

/-- C6: when the packed file exceeds `capacity - 28`, `hide` fails inside
`packWithPadding` with the `LengthTooSmall` error.  The result does not
depend on the encryption provider or on the randomness oracle, which shows
the failure happens before any encryption and before any buffer is produced
(no pixel is mutated: the function returns no buffer at all). -/
theorem claimC6_oversize_rejection (channels name content key : List Nat) (b : Nat)
    (enc : List Nat → List Nat → List Nat) (rnd : Nat → Nat)
    (hb : validBits b) (h1 : 1 ≤ name.length) (h255 : name.length ≤ 255)
    (hover : (StegImage.calcCapacity channels.length b).2 - 28 <
      (1 + name.length + 4 + content.length : Int)) :
    StegImage.hide channels content name key enc b rnd =
      .error "requiredLength is lesser than result" ∧
    (∀ (enc' : List Nat → List Nat → List Nat) (rnd' : Nat → Nat),
      StegImage.hide channels content name key enc' b rnd' =
        StegImage.hide channels content name key enc b rnd) := by
  have hlen : ∀ (e : List Nat → List Nat → List Nat) (r : Nat → Nat),
      StegImage.hide channels content name key e b r =
        .error "requiredLength is lesser than result" := by
    intro e r
    unfold StegImage.hide
    rw [if_neg (not_not_intro hb)]
    have hpad : RawFile.packWithPadding content name
        ((StegImage.calcCapacity channels.length b).2 - 28) =
        .error "requiredLength is lesser than result" :=
      RawFile.packWithPadding_err content name _ h1 h255 (by omega)
    simp only []
    rw [hpad]
    rfl
  exact ⟨hlen enc rnd, fun enc' rnd' => (hlen enc' rnd').trans (hlen enc rnd).symm⟩

/-- Witness for C6: a 4-pixel buffer at `bitsTaken = 1` has capacity 1 byte,
so even the smallest file (1-byte name, empty content) is oversize. -/
theorem claimC6_oversize_rejection_witness :
    StegImage.hide (List.replicate 16 0) [] [97] (List.replicate 32 1)
      (fun _ pt => pt) 1 (fun _ => 0) =
      .error "requiredLength is lesser than result" :=
  (claimC6_oversize_rejection (List.replicate 16 0) [97] [] (List.replicate 32 1) 1
    (fun _ pt => pt) (fun _ => 0) (by decide) (by decide) (by decide) (by decide)).1

/-! ### Cursor lemmas -/

namespace StegImage

theorem nextPos_val (p : Nat) : nextPos p = if (p + 1) % 4 = 3 then p + 2 else p + 1 := by
  simp [nextPos, beq_iff_eq]

theorem writeChannel_pos (bits data : Nat) (st : St) :
    (writeChannel bits data st).pos = nextPos st.pos := by
  simp only [writeChannel, nextPos, isAlpha]
  split <;> simp_all

theorem writeChannel_length (bits data : Nat) (st : St) :
    (writeChannel bits data st).channels.length = st.channels.length := by
  simp only [writeChannel]
  split <;> simp

theorem writeChannel_lt256 (bits data : Nat) (st : St)
    (h : ∀ x ∈ st.channels, x < 256) :
    ∀ x ∈ (writeChannel bits data st).channels, x < 256 := by
  simp only [writeChannel]
  split <;> intro x hx
  · rcases List.mem_or_eq_of_mem_set hx with hx | rfl
    · rcases List.mem_or_eq_of_mem_set hx with hx | rfl
      · exact h x hx
      · exact Nat.mod_lt _ (by omega)
    · omega
  · rcases List.mem_or_eq_of_mem_set hx with hx | rfl
    · exact h x hx
    · exact Nat.mod_lt _ (by omega)

theorem writeChannel_getD_lt (bits data : Nat) (st : St) (j : Nat) (hj : j < st.pos) :
    (writeChannel bits data st).channels.getD j 0 = st.channels.getD j 0 := by
  have h1 : st.pos ≠ j := by omega
  have h2 : st.pos + 1 ≠ j := by omega
  simp only [writeChannel]
  split <;>
    simp [List.getD_eq_getElem?_getD, List.getElem?_set_ne h1, List.getElem?_set_ne h2]

theorem writeChannel_getD_pos (bits data : Nat) (st : St)
    (hlt : st.pos < st.channels.length) :
    (writeChannel bits data st).channels.getD st.pos 0 =
      (clearBits (st.channels.getD st.pos 0) bits ||| data) % 256 := by
  have hne : st.pos + 1 ≠ st.pos := by omega
  simp only [writeChannel]
  split <;>
    simp [List.getD_eq_getElem?_getD, List.getElem?_set_ne hne,
      List.getElem?_set_self (by simpa using hlt)]

theorem writeChannel_getD_alpha (bits data : Nat) (st : St)
    (halpha : (st.pos + 1) % 4 = 3) (hlt : st.pos + 1 < st.channels.length) :
    (writeChannel bits data st).channels.getD (st.pos + 1) 0 = 0 := by
  simp only [writeChannel, isAlpha]
  rw [if_pos (by simpa using halpha)]
  simp only [List.getD_eq_getElem?_getD]
  rw [List.getElem?_set_self (by simp only [List.length_set]; omega)]
  rfl

theorem masked_write (curr v b : Nat) (hc : curr < 256) (hv : v < 2 ^ b) (hb : b ≤ 8) :
    ((clearBits curr b ||| v) % 256) &&& (2 ^ b - 1) = v := by
  have hor : clearBits curr b ||| v = curr / 2 ^ b * 2 ^ b + v := by
    simp only [clearBits, Nat.shiftRight_eq_div_pow]
    exact lor_shl_eq_add _ v b hv
  have hq : curr / 2 ^ b < 2 ^ (8 - b) := by
    rw [Nat.div_lt_iff_lt_mul (Nat.two_pow_pos b), ← pow_add]
    have : 8 - b + b = 8 := by omega
    rw [this]
    omega
  have hlt : curr / 2 ^ b * 2 ^ b + v < 256 := by
    have h1 : curr / 2 ^ b * 2 ^ b + v < (curr / 2 ^ b + 1) * 2 ^ b := by
      have : (curr / 2 ^ b + 1) * 2 ^ b = curr / 2 ^ b * 2 ^ b + 2 ^ b := by ring
      omega
    have h2 : (curr / 2 ^ b + 1) * 2 ^ b ≤ 2 ^ (8 - b) * 2 ^ b :=
      Nat.mul_le_mul_right _ (by omega)
    have h3 : (2 : Nat) ^ (8 - b) * 2 ^ b = 256 := by
      rw [← pow_add]
      have : 8 - b + b = 8 := by omega
      rw [this]
      norm_num
    omega
  rw [hor, Nat.mod_eq_of_lt hlt, Nat.and_pow_two_sub_one_eq_mod,
    show curr / 2 ^ b * 2 ^ b + v = 2 ^ b * (curr / 2 ^ b) + v by ring,
    Nat.mul_add_mod, Nat.mod_eq_of_lt hv]

theorem nextPos_invariant (p len : Nat) (hlen : len % 4 = 0) (_hp : p % 4 ≠ 3)
    (hlt : p < len) :
    nextPos p ≤ len ∧ nextPos p % 4 ≠ 3 ∧ p < nextPos p := by
  rw [nextPos_val]
  split <;> omega

theorem slots_stop (p len : Nat) (h : ¬ p < len) : slots p len = 0 := by
  rw [slots, if_neg h]

theorem slots_step (p len : Nat) (h : p < len) :
    slots p len = slots (nextPos p) len + 1 := by
  rw [slots, if_pos h]

theorem slots_sub (j len : Nat) (hlen : len % 4 = 0) (hj : 4 * j ≤ len) :
    slots (len - 4 * j) len = 3 * j := by
  induction j with
  | zero => rw [slots_stop _ _ (by omega)]
  | succ j ih =>
    set p := len - 4 * (j + 1)
    have hp4 : p % 4 = 0 := by omega
    rw [slots_step _ _ (by omega), nextPos_val, if_neg (by omega),
      slots_step _ _ (by omega), nextPos_val, if_neg (by omega),
      slots_step _ _ (by omega), nextPos_val, if_pos (by omega),
      show p + 1 + 1 + 2 = len - 4 * j by omega, ih (by omega)]
    ring

theorem slots_start (len : Nat) (hlen : len % 4 = 0) (h4 : 4 ≤ len) :
    slots 4 len = 3 * (len / 4 - 1) := by
  have h := slots_sub (len / 4 - 1) len hlen (by omega)
  have he : len - 4 * (len / 4 - 1) = 4 := by omega
  rwa [he] at h

theorem writeChunks_nil (b : Nat) (st : St) : writeChunks b [] st = st := rfl

theorem writeChunks_cons (b v : Nat) (vs : List Nat) (st : St) :
    writeChunks b (v :: vs) st = writeChunks b vs (writeChannel b v st) := rfl

theorem writeChunks_append (b : Nat) (vs1 vs2 : List Nat) (st : St) :
    writeChunks b (vs1 ++ vs2) st = writeChunks b vs2 (writeChunks b vs1 st) := by
  simp [writeChunks, List.foldl_append]

theorem writeChunks_pos_track (b len : Nat) (hlen : len % 4 = 0) (vs : List Nat) :
    ∀ st : St, st.pos ≤ len → st.pos % 4 ≠ 3 → vs.length ≤ slots st.pos len →
      (writeChunks b vs st).pos ≤ len ∧ (writeChunks b vs st).pos % 4 ≠ 3 ∧
        slots (writeChunks b vs st).pos len = slots st.pos len - vs.length := by
  induction vs with
  | nil =>
    intro st h1 h2 h3
    rw [writeChunks_nil]
    exact ⟨h1, h2, by simp⟩
  | cons v vs ih =>
    intro st h1 h2 h3
    rw [writeChunks_cons]
    have hlt : st.pos < len := by
      by_contra h
      rw [slots_stop _ _ h] at h3
      simp at h3
    have hnp := nextPos_invariant st.pos len hlen h2 hlt
    have hwp : (writeChannel b v st).pos = nextPos st.pos := writeChannel_pos b v st
    have hslots := slots_step st.pos len hlt
    have hrec := ih (writeChannel b v st) (by rw [hwp]; exact hnp.1)
      (by rw [hwp]; exact hnp.2.1)
      (by rw [hwp]; simp only [List.length_cons] at h3; omega)
    refine ⟨hrec.1, hrec.2.1, ?_⟩
    rw [hrec.2.2, hwp]
    simp only [List.length_cons]
    omega

end StegImage

namespace StegImage

theorem readValsAux_stop (channels : List Nat) (len mask cid : Nat) (h : ¬ cid < len) :
    readValsAux channels len mask cid = [] := by
  rw [readValsAux, if_neg h]

theorem readValsAux_step_nonalpha (channels : List Nat) (len mask cid : Nat)
    (h : cid < len) (ha : cid % 4 ≠ 3) :
    readValsAux channels len mask cid =
      (channels.getD cid 0 &&& mask) :: readValsAux channels len mask (cid + 1) := by
  rw [readValsAux, if_pos h]
  simp only [isAlpha]
  rw [if_neg (by simpa using ha)]

theorem readValsAux_step_alpha (channels : List Nat) (len mask cid : Nat)
    (h : cid < len) (ha : cid % 4 = 3) :
    readValsAux channels len mask cid =
      (channels.getD (cid + 1) 0 &&& mask) :: readValsAux channels len mask (cid + 2) := by
  rw [readValsAux, if_pos h]
  simp only [isAlpha]
  rw [if_pos (by simpa using ha)]

/-- The central write/read synchronization lemma: folding an exact-fill list
of `b`-bit values through `writeChannel` from a non-alpha cursor position
fills the cursor to the end of the buffer, zeroes every alpha channel it
passes, leaves everything below the start untouched, and leaves a buffer
whose masked read-back (`readValsAux`) returns exactly the written values
followed by the one phantom `0` of the final alpha skip. -/
theorem writeChunks_spec (b len : Nat) (_hb1 : 1 ≤ b) (hb8 : b ≤ 8)
    (hlen : len % 4 = 0) (vs : List Nat) :
    ∀ st : St, st.channels.length = len → (∀ x ∈ st.channels, x < 256) →
      st.pos ≤ len → st.pos % 4 ≠ 3 → vs.length = slots st.pos len →
      (∀ v ∈ vs, v < 2 ^ b) →
      (writeChunks b vs st).pos = len ∧
      (writeChunks b vs st).channels.length = len ∧
      (∀ x ∈ (writeChunks b vs st).channels, x < 256) ∧
      (∀ j, j < st.pos → (writeChunks b vs st).channels.getD j 0 = st.channels.getD j 0) ∧
      (∀ i, st.pos ≤ i → i < len → i % 4 = 3 →
        (writeChunks b vs st).channels.getD i 0 = 0) ∧
      readValsAux (writeChunks b vs st).channels len (2 ^ b - 1) st.pos =
        vs ++ (if st.pos < len then [0] else []) := by
  induction vs with
  | nil =>
    intro st hchlen hch256 hple h4 hslots hvlt
    rw [writeChunks_nil]
    have hstop : ¬ st.pos < len := by
      by_contra h
      rw [slots_step _ _ h] at hslots
      simp at hslots
    refine ⟨by omega, hchlen, hch256, fun j _ => rfl, ?_, ?_⟩
    · intro i hi1 hi2 _
      omega
    · rw [readValsAux_stop _ _ _ _ hstop, if_neg hstop]
      rfl
  | cons v vs ih =>
    intro st hchlen hch256 hple h4 hslots hvlt
    have hlt : st.pos < len := by
      by_contra h
      rw [slots_stop _ _ h] at hslots
      simp at hslots
    have hpos1 : (writeChannel b v st).pos = nextPos st.pos := writeChannel_pos b v st
    have hnp := nextPos_invariant st.pos len hlen h4 hlt
    have hlen1 : (writeChannel b v st).channels.length = len := by
      rw [writeChannel_length, hchlen]
    have h256' : ∀ x ∈ (writeChannel b v st).channels, x < 256 :=
      writeChannel_lt256 b v st hch256
    have hslots1 : vs.length = slots (writeChannel b v st).pos len := by
      rw [hpos1]
      rw [slots_step _ _ hlt] at hslots
      simpa using hslots
    have hvlt1 : ∀ x ∈ vs, x < 2 ^ b := fun x hx => hvlt x (by simp [hx])
    have hrec := ih (writeChannel b v st) hlen1 h256' (hpos1 ▸ hnp.1)
      (hpos1 ▸ hnp.2.1) hslots1 hvlt1
    rw [writeChunks_cons]
    obtain ⟨ha, hb', hc, hd, he, hf⟩ := hrec
    have hvlt' : v < 2 ^ b := hvlt v (by simp)
    have hcurr : st.channels.getD st.pos 0 < 256 := by
      rw [List.getD_eq_getElem (st.channels) 0 (by omega)]
      exact hch256 _ (List.getElem_mem _)
    have hvpos : (writeChunks b vs (writeChannel b v st)).channels.getD st.pos 0 =
        (clearBits (st.channels.getD st.pos 0) b ||| v) % 256 := by
      rw [hd st.pos (by rw [hpos1]; exact hnp.2.2)]
      exact writeChannel_getD_pos b v st (by omega)
    have hmask : (writeChunks b vs (writeChannel b v st)).channels.getD st.pos 0 &&&
        (2 ^ b - 1) = v := by
      rw [hvpos]
      exact masked_write _ v b hcurr hvlt' hb8
    have hnpb : nextPos st.pos ≤ st.pos + 2 := by
      rw [nextPos_val]; split <;> omega
    refine ⟨ha, hb', hc, ?_, ?_, ?_⟩
    · intro j hj
      rw [hd j (by omega), writeChannel_getD_lt b v st j hj]
    · intro i hi1 hi2 hi3
      by_cases hcase : nextPos st.pos ≤ i
      · exact he i (by omega) hi2 hi3
      · have : i = st.pos ∨ i = st.pos + 1 := by omega
        rcases this with rfl | rfl
        · exact absurd hi3 h4
        · rw [hd (st.pos + 1) (by
            rw [hpos1, nextPos_val, if_pos (by omega)]
            omega)]
          exact writeChannel_getD_alpha b v st hi3 (by omega)
    · rw [if_pos hlt, readValsAux_step_nonalpha _ _ _ _ hlt h4, hmask]
      simp only [List.cons_append, List.cons.injEq, true_and]
      by_cases hcase : (st.pos + 1) % 4 = 3
      · -- alpha skip: nextPos st.pos = st.pos + 2
        have hnp2 : nextPos st.pos = st.pos + 2 := by
          rw [nextPos_val, if_pos hcase]
        have hlt1 : st.pos + 1 < len := by omega
        rw [readValsAux_step_alpha _ _ _ _ hlt1 hcase]
        by_cases hend : st.pos + 2 < len
        · rw [hpos1, hnp2] at hf
          rw [if_pos hend] at hf
          rw [readValsAux_step_nonalpha _ _ _ _ hend (by omega)] at hf
          rw [show st.pos + 1 + 1 = st.pos + 2 by omega,
            show st.pos + 1 + 2 = st.pos + 2 + 1 by omega]
          exact hf
        · -- st.pos + 2 = len: the phantom read past the end
          have hlen2 : st.pos + 2 = len := by omega
          rw [hpos1, hnp2, hlen2] at hf
          rw [if_neg (by omega), readValsAux_stop _ _ _ _ (by omega)] at hf
          have hvs : vs = [] := by simpa using hf.symm
          subst hvs
          rw [show st.pos + 1 + 1 = len by omega]
          have hgd : (writeChunks b [] (writeChannel b v st)).channels.getD len 0 = 0 := by
            apply List.getD_eq_default
            omega
          rw [hgd]
          rw [readValsAux_stop _ _ _ _ (by omega)]
          simp
      · -- no alpha skip: nextPos st.pos = st.pos + 1
        have hnp1 : nextPos st.pos = st.pos + 1 := by
          rw [nextPos_val, if_neg hcase]
        have hlt1 : st.pos + 1 < len := by omega
        rw [hpos1, hnp1, if_pos hlt1] at hf
        exact hf

end StegImage

namespace StegImage

theorem payloadFold_eq_flat (b : Nat) (hData : List Nat) (st : St) :
    payloadFold b hData st = (bitsOfBytes hData).foldl (pushBitStep b) (st, 0, 0) := by
  suffices h : ∀ acc : St × Nat × Nat,
      hData.foldl (fun acc byte =>
        (List.range 8).foldl (fun a bit => pushBitStep b a (readBit byte bit)) acc) acc =
      (bitsOfBytes hData).foldl (pushBitStep b) acc from h (st, 0, 0)
  induction hData with
  | nil => intro acc; rfl
  | cons x xs ih =>
    intro acc
    simp only [List.foldl_cons, bitsOfBytes, List.foldl_append]
    rw [← ih]
    congr 1

theorem bitsVal_snoc (r : List Nat) (x : Nat) (hx : x < 2) :
    (bitsVal r <<< 1) ||| x = bitsVal (r ++ [x]) := by
  have h1 : bitsVal [x] = x := by
    simp only [bitsVal, List.foldl_cons, List.foldl_nil]
    rw [shl1_lor 0 x hx]
    omega
  rw [bitsVal_append r [x] (by intro y hy; simp at hy; omega), h1,
    shl1_lor (bitsVal r) x hx]
  simp only [List.length_cons, List.length_nil, pow_one]
  ring

theorem pushBit_fold_spec (b : Nat) (bits : List Nat) :
    ∀ (r : List Nat) (st : St), (∀ x ∈ bits, x < 2) → (∀ x ∈ r, x < 2) →
      r.length < b →
      bits.foldl (pushBitStep b) (st, bitsVal r, r.length) =
        (writeChunks b ((splitChunks b (r ++ bits)).1.map bitsVal) st,
          bitsVal (splitChunks b (r ++ bits)).2,
          (splitChunks b (r ++ bits)).2.length) := by
  induction bits with
  | nil =>
    intro r st hbits hr hrb
    rw [List.append_nil, splitChunks_small b r (by omega)]
    simp [writeChunks_nil]
  | cons x bits ih =>
    intro r st hbits hr hrb
    have hx : x < 2 := hbits x (by simp)
    have hbits' : ∀ y ∈ bits, y < 2 := fun y hy => hbits y (by simp [hy])
    have hrx : ∀ y ∈ r ++ [x], y < 2 := by
      intro y hy
      rcases List.mem_append.mp hy with hy | hy
      · exact hr y hy
      · simp at hy; omega
    have hassoc : r ++ x :: bits = (r ++ [x]) ++ bits := by simp
    simp only [List.foldl_cons]
    by_cases hfull : r.length + 1 = b
    · have hstep : pushBitStep b (st, bitsVal r, r.length) x =
          (writeChannel b (bitsVal (r ++ [x])) st, 0, 0) := by
        simp only [pushBitStep]
        rw [bitsVal_snoc r x hx,
          if_pos (show (r.length + 1 == b) = true by simpa using hfull)]
      rw [hstep,
        show ((writeChannel b (bitsVal (r ++ [x])) st, 0, 0) : St × Nat × Nat) =
          (writeChannel b (bitsVal (r ++ [x])) st, bitsVal [], ([] : List Nat).length)
          from rfl,
        ih [] (writeChannel b (bitsVal (r ++ [x])) st) hbits' (by simp)
          (by simp only [List.length_nil]; omega),
        hassoc, splitChunks_chunk b (r ++ [x]) bits (by simp; omega) (by omega)]
      simp [writeChunks_cons]
    · have hstep : pushBitStep b (st, bitsVal r, r.length) x =
          (st, bitsVal (r ++ [x]), (r ++ [x]).length) := by
        simp only [pushBitStep]
        rw [bitsVal_snoc r x hx,
          if_neg (show ¬ (r.length + 1 == b) = true by simpa using hfull)]
        simp
      rw [hstep, ih (r ++ [x]) st hbits' hrx (by simp; omega), hassoc]

theorem foldlM_bits_ok (rb : Nat) (l : List Nat) (hl : ∀ i ∈ l, ¬ i > 7) :
    ∀ p : Nat × Nat,
      (l.foldlM (fun (p : Nat × Nat) i =>
        if i > 7 then Except.error "StegImage#hideBlob: Need more than 7 random bits"
        else Except.ok ((p.1 <<< 1) ||| readBit rb i, p.2 + 1)) p :
        Except String (Nat × Nat)) =
      .ok (l.foldl (fun (p : Nat × Nat) i => ((p.1 <<< 1) ||| readBit rb i, p.2 + 1)) p) := by
  induction l with
  | nil => intro p; rfl
  | cons i l ih =>
    intro p
    have hi : ¬ i > 7 := hl i (by simp)
    rw [List.foldlM_cons, if_neg hi]
    simp only [List.foldl_cons]
    rw [show (Except.ok ((p.1 <<< 1) ||| readBit rb i, p.2 + 1) :
        Except String (Nat × Nat)) >>= _ = _ from rfl]
    exact ih (fun j hj => hl j (by simp [hj])) _

theorem bits_fold_val (rb : Nat) (l : List Nat) :
    ∀ r : List Nat,
      l.foldl (fun (p : Nat × Nat) i => ((p.1 <<< 1) ||| readBit rb i, p.2 + 1))
        (bitsVal r, r.length) =
      (bitsVal (r ++ l.map (readBit rb)), r.length + l.length) := by
  induction l with
  | nil => intro r; simp
  | cons i l ih =>
    intro r
    simp only [List.foldl_cons]
    rw [bitsVal_snoc r (readBit rb i) (readBit_lt_two rb i),
      show r.length + 1 = (r ++ [readBit rb i]).length by simp,
      ih (r ++ [readBit rb i])]
    simp only [List.map_cons, List.length_cons, List.length_nil, List.append_assoc,
      List.singleton_append, List.length_append, List.length_map, Prod.mk.injEq]
    exact ⟨trivial, by omega⟩

theorem leftoverPhase_ok (b rb : Nat) (r : List Nat) (_hr2 : ∀ x ∈ r, x < 2)
    (hb8 : b ≤ 8) (hr1 : 1 ≤ r.length) (hrb : r.length < b) :
    leftoverPhase b rb (bitsVal r) r.length =
      .ok (bitsVal (r ++ (List.range (b - r.length)).map (readBit rb)), b) := by
  have hle : ∀ i ∈ List.range (b - r.length), ¬ i > 7 := by
    intro i hi
    simp only [List.mem_range] at hi
    omega
  unfold leftoverPhase
  simp only []
  rw [foldlM_bits_ok rb _ hle (bitsVal r, r.length), bits_fold_val rb _ r]
  simp only [bind, Except.bind, List.length_range]
  rw [show r.length + (b - r.length) = b by omega]
  rw [if_neg (by simp)]
  rfl

theorem trailingLoop_eq_aux (b len : Nat) (rnd : Nat → Nat) :
    ∀ (n k : Nat) (st : St), len - st.pos ≤ n →
      (trailingLoop b len rnd k st).1 =
        writeChunks b (trailingVals b len rnd k st.pos) st := by
  intro n
  induction n with
  | zero =>
    intro k st hn
    have hstop : ¬ st.pos < len := by omega
    rw [trailingLoop, if_neg hstop, trailingVals, if_neg hstop, writeChunks_nil]
  | succ n ihn =>
    intro k st hn
    by_cases hlt : st.pos < len
    · rw [trailingLoop, if_pos hlt, trailingVals, if_pos hlt, writeChunks_cons]
      simp only []
      have hpos := writeChannel_pos b (rnd k % 256 &&& (2 ^ b - 1)) st
      have hdec : len - (writeChannel b (rnd k % 256 &&& (2 ^ b - 1)) st).pos ≤ n := by
        rw [hpos, nextPos_val]
        split <;> omega
      rw [ihn (k + 1) _ hdec, hpos]
    · rw [trailingLoop, if_neg hlt, trailingVals, if_neg hlt, writeChunks_nil]

theorem trailingLoop_eq (b len : Nat) (rnd : Nat → Nat) (k : Nat) (st : St) :
    (trailingLoop b len rnd k st).1 =
      writeChunks b (trailingVals b len rnd k st.pos) st :=
  trailingLoop_eq_aux b len rnd (len - st.pos) k st le_rfl

theorem trailingVals_length (b len : Nat) (rnd : Nat → Nat) :
    ∀ (k p : Nat), (trailingVals b len rnd k p).length = slots p len := by
  intro k p
  induction k, p using trailingVals.induct b len rnd with
  | case1 k p hlt ih =>
    rw [trailingVals, if_pos hlt, slots_step _ _ hlt]
    simp only [List.length_cons]
    rw [ih]
  | case2 k p hlt =>
    rw [trailingVals, if_neg hlt, slots_stop _ _ hlt]
    rfl

theorem trailingVals_mem_lt (b len : Nat) (rnd : Nat → Nat) :
    ∀ (k p : Nat), ∀ v ∈ trailingVals b len rnd k p, v < 2 ^ b := by
  intro k p
  induction k, p using trailingVals.induct b len rnd with
  | case1 k p hlt ih =>
    rw [trailingVals, if_pos hlt]
    intro v hv
    rcases List.mem_cons.mp hv with rfl | hv
    · have h1 : rnd k % 256 &&& (2 ^ b - 1) ≤ 2 ^ b - 1 := Nat.and_le_right
      have h2 : 0 < 2 ^ b := Nat.two_pow_pos b
      omega
    · exact ih v hv
  | case2 k p hlt =>
    rw [trailingVals, if_neg hlt]
    simp

end StegImage

namespace StegImage

theorem writeChannel_getD_other (bits data : Nat) (st : St) (j : Nat)
    (hj : j ≠ st.pos) (hj2 : (st.pos + 1) % 4 = 3 → j ≠ st.pos + 1) :
    (writeChannel bits data st).channels.getD j 0 = st.channels.getD j 0 := by
  simp only [writeChannel, isAlpha]
  split
  case isTrue h =>
    have h' : (st.pos + 1) % 4 = 3 := by simpa using h
    have hne := hj2 h'
    simp [List.getD_eq_getElem?_getD,
      List.getElem?_set_ne (show st.pos + 1 ≠ j by omega),
      List.getElem?_set_ne (show st.pos ≠ j by omega)]
  case isFalse h =>
    simp [List.getD_eq_getElem?_getD,
      List.getElem?_set_ne (show st.pos ≠ j by omega)]

theorem header_readback (curr bit : Nat) (hbit : bit < 2) :
    readBit ((clearBits curr 1 ||| bit) % 256) 7 = bit := by
  simp only [readBit, Nat.sub_self, Nat.shiftRight_eq_div_pow, pow_zero,
    Nat.div_one, Nat.and_one_is_mod]
  have h1 : clearBits curr 1 ||| bit = curr / 2 * 2 + bit := by
    simp only [clearBits, Nat.shiftRight_eq_div_pow, pow_one]
    have h := lor_shl_eq_add (curr / 2) bit 1 (by simpa using hbit)
    simpa using h
  rw [h1]
  omega

theorem writeHeaderLoop_eval (b : Nat) (ch : List Nat) :
    writeHeaderLoop b ⟨ch, 0⟩ =
      writeChannel 1 (readBit (b - 1) 7)
        (writeChannel 1 (readBit (b - 1) 6)
          (writeChannel 1 (readBit (b - 1) 5) ⟨ch, 0⟩)) := by
  have hp0 : (⟨ch, 0⟩ : St).pos = 0 := rfl
  have hp1 : (writeChannel 1 (readBit (b - 1) 5) ⟨ch, 0⟩).pos = 1 := by
    rw [writeChannel_pos, hp0]; decide
  have hp2 : (writeChannel 1 (readBit (b - 1) 6)
      (writeChannel 1 (readBit (b - 1) 5) ⟨ch, 0⟩)).pos = 2 := by
    rw [writeChannel_pos, hp1]; decide
  have hp3 : (writeChannel 1 (readBit (b - 1) 7) (writeChannel 1 (readBit (b - 1) 6)
      (writeChannel 1 (readBit (b - 1) 5) ⟨ch, 0⟩))).pos = 4 := by
    rw [writeChannel_pos, hp2]; decide
  rw [writeHeaderLoop, if_pos (by rw [hp0]; omega),
    show (5 + (⟨ch, 0⟩ : St).pos) = 5 from rfl,
    writeHeaderLoop, if_pos (by rw [hp1]; omega),
    show 5 + (writeChannel 1 (readBit (b - 1) 5) ⟨ch, 0⟩).pos = 6 by rw [hp1],
    writeHeaderLoop, if_pos (by rw [hp2]; omega),
    show 5 + (writeChannel 1 (readBit (b - 1) 6)
      (writeChannel 1 (readBit (b - 1) 5) ⟨ch, 0⟩)).pos = 7 by rw [hp2],
    writeHeaderLoop, if_neg (by rw [hp3]; omega)]

theorem writeHeaderLoop_facts (b : Nat) (ch : List Nat) (hch : 4 ≤ ch.length) :
    (writeHeaderLoop b ⟨ch, 0⟩).pos = 4 ∧
    (writeHeaderLoop b ⟨ch, 0⟩).channels.length = ch.length ∧
    ((∀ x ∈ ch, x < 256) → ∀ x ∈ (writeHeaderLoop b ⟨ch, 0⟩).channels, x < 256) ∧
    readBit ((writeHeaderLoop b ⟨ch, 0⟩).channels.getD 0 0) 7 = readBit (b - 1) 5 ∧
    readBit ((writeHeaderLoop b ⟨ch, 0⟩).channels.getD 1 0) 7 = readBit (b - 1) 6 ∧
    readBit ((writeHeaderLoop b ⟨ch, 0⟩).channels.getD 2 0) 7 = readBit (b - 1) 7 ∧
    (writeHeaderLoop b ⟨ch, 0⟩).channels.getD 3 0 = 0 := by
  rw [writeHeaderLoop_eval]
  set st0 : St := ⟨ch, 0⟩ with hst0
  set w1 := writeChannel 1 (readBit (b - 1) 5) st0 with hw1
  set w2 := writeChannel 1 (readBit (b - 1) 6) w1 with hw2
  have hp0 : st0.pos = 0 := rfl
  have hp1 : w1.pos = 1 := by rw [hw1, writeChannel_pos, hp0]; decide
  have hp2 : w2.pos = 2 := by rw [hw2, writeChannel_pos, hp1]; decide
  have hp3 : (writeChannel 1 (readBit (b - 1) 7) w2).pos = 4 := by
    rw [writeChannel_pos, hp2]; decide
  have hc0 : st0.channels = ch := rfl
  have hl1 : w1.channels.length = ch.length := by rw [hw1, writeChannel_length]
  have hl2 : w2.channels.length = ch.length := by rw [hw2, writeChannel_length, hl1]
  have hl3 : (writeChannel 1 (readBit (b - 1) 7) w2).channels.length = ch.length := by
    rw [writeChannel_length, hl2]
  refine ⟨hp3, hl3, ?_, ?_, ?_, ?_, ?_⟩
  · intro h256
    exact writeChannel_lt256 _ _ _ (writeChannel_lt256 _ _ _ (writeChannel_lt256 _ _ _ h256))
  · have e3 : (writeChannel 1 (readBit (b - 1) 7) w2).channels.getD 0 0 =
        w2.channels.getD 0 0 := writeChannel_getD_lt _ _ _ 0 (by omega)
    have e2 : w2.channels.getD 0 0 = w1.channels.getD 0 0 := by
      rw [hw2]; exact writeChannel_getD_lt _ _ _ 0 (by omega)
    have e1 : w1.channels.getD 0 0 =
        (clearBits (ch.getD 0 0) 1 ||| readBit (b - 1) 5) % 256 := by
      rw [hw1]
      exact writeChannel_getD_pos 1 _ st0 (by rw [hc0]; omega)
    rw [e3, e2, e1]
    exact header_readback _ _ (readBit_lt_two _ _)
  · have e3 : (writeChannel 1 (readBit (b - 1) 7) w2).channels.getD 1 0 =
        w2.channels.getD 1 0 := writeChannel_getD_lt _ _ _ 1 (by omega)
    have e2 : w2.channels.getD 1 0 =
        (clearBits (w1.channels.getD 1 0) 1 ||| readBit (b - 1) 6) % 256 := by
      rw [hw2]
      have := writeChannel_getD_pos 1 (readBit (b - 1) 6) w1 (by rw [hl1]; omega)
      rwa [hp1] at this
    have e1 : w1.channels.getD 1 0 = ch.getD 1 0 := by
      rw [hw1]
      have := writeChannel_getD_other 1 (readBit (b - 1) 5) st0 1
        (by rw [hp0]; omega) (by rw [hp0]; omega)
      rwa [hc0] at this
    rw [e3, e2, e1]
    exact header_readback _ _ (readBit_lt_two _ _)
  · have e3 : (writeChannel 1 (readBit (b - 1) 7) w2).channels.getD 2 0 =
        (clearBits (w2.channels.getD 2 0) 1 ||| readBit (b - 1) 7) % 256 := by
      have := writeChannel_getD_pos 1 (readBit (b - 1) 7) w2 (by rw [hl2]; omega)
      rwa [hp2] at this
    have e2 : w2.channels.getD 2 0 = w1.channels.getD 2 0 := by
      rw [hw2]
      exact writeChannel_getD_other 1 (readBit (b - 1) 6) w1 2
        (by rw [hp1]; omega) (by rw [hp1]; omega)
    have e1 : w1.channels.getD 2 0 = ch.getD 2 0 := by
      rw [hw1]
      have := writeChannel_getD_other 1 (readBit (b - 1) 5) st0 2
        (by rw [hp0]; omega) (by rw [hp0]; omega)
      rwa [hc0] at this
    rw [e3, e2, e1]
    exact header_readback _ _ (readBit_lt_two _ _)
  · have := writeChannel_getD_alpha 1 (readBit (b - 1) 7) w2
      (by rw [hp2]) (by rw [hp2, hl2]; omega)
    rwa [hp2] at this

theorem bits_reassemble (b : Nat) (hb : validBits b) :
    1 + (readBit (b - 1) 5 <<< 2 ||| readBit (b - 1) 6 <<< 1 ||| readBit (b - 1) 7) = b := by
  obtain ⟨h1, h8⟩ := hb
  interval_cases b <;> decide

theorem valsBits_map_bitsVal (b : Nat) (cs : List (List Nat))
    (h : ∀ c ∈ cs, c.length = b ∧ ∀ x ∈ c, x < 2) :
    valsBits b (cs.map bitsVal) = joinL cs := by
  induction cs with
  | nil => rfl
  | cons c cs ih =>
    obtain ⟨hcl, hcb⟩ := h c (by simp)
    have hc : bitsOfVal b (bitsVal c) = c := by
      rw [← hcl]; exact bitsOfVal_bitsVal c hcb
    simp only [List.map_cons, valsBits, joinL]
    rw [hc, ih (fun d hd => h d (by simp [hd]))]

theorem calcCapacity_nat (len b : Nat) (h4 : 4 ≤ len) (hlen : len % 4 = 0) :
    (calcCapacity (len : Int) b).2 = ((3 * (len / 4 - 1) * b : Nat) / 8 : Nat) := by
  have e1 : ((len : Int) - 4) / 4 = ((len / 4 - 1 : Nat) : Int) := by
    rw [show ((len : Int) - 4) = (((len - 4 : Nat)) : Int) by omega,
      show ((4 : Int)) = ((4 : Nat) : Int) from rfl, ← Int.ofNat_ediv]
    congr 1
    omega
  show Int.fdiv (((len : Int) - 4) / 4 * 3 * (b : Nat)) 8 = _
  rw [e1, Int.ofNat_fdiv]
  congr 1
  push_cast
  ring

theorem chunks_le_slots (n A b : Nat) (hb1 : 1 ≤ b) (hn : n ≤ A * b / 8) :
    8 * n / b + (if 8 * n % b = 0 then 0 else 1) ≤ A := by
  have h8n : 8 * n ≤ A * b := by
    have h1 : 8 * n ≤ 8 * (A * b / 8) := by omega
    have h2 : 8 * (A * b / 8) ≤ A * b := Nat.mul_div_le (A * b) 8 |>.trans_eq' (by ring_nf)
    omega
  have hdm := Nat.div_add_mod (8 * n) b
  split
  case isTrue h0 =>
    have h1 : 8 * n / b ≤ A * b / b := Nat.div_le_div_right h8n
    rw [Nat.mul_div_cancel _ (by omega)] at h1
    omega
  case isFalse h0 =>
    by_contra hcon
    have hA : A ≤ 8 * n / b := by omega
    have h1 : A * b ≤ 8 * n / b * b := Nat.mul_le_mul_right b hA
    have hr : 8 * n % b < b := Nat.mod_lt _ (by omega)
    have h2 : 8 * n / b * b = b * (8 * n / b) := by ring
    omega

end StegImage

namespace StegImage

theorem hideBlob_mid (channels hData : List Nat) (b : Nat) (rnd : Nat → Nat)
    (hb1 : 1 ≤ b) (hb8 : b ≤ 8)
    (hcapgt : ¬ ((hData.length : Int) > (calcCapacity (channels.length : Int) b).2)) :
    ∃ (LV F' : List Nat) (kk : Nat),
      (∀ v ∈ LV, v < 2 ^ b) ∧
      LV.length = (if 8 * hData.length % b = 0 then 0 else 1) ∧
      (∀ x ∈ F', x < 2) ∧
      valsBits b ((splitChunks b (bitsOfBytes hData)).1.map bitsVal ++ LV) =
        bitsOfBytes hData ++ F' ∧
      hideBlob channels hData b rnd =
        (if ((trailingLoop b channels.length rnd kk
            (writeChunks b ((splitChunks b (bitsOfBytes hData)).1.map bitsVal ++ LV)
              (writeHeaderLoop b ⟨channels, 0⟩))).1.pos ≠ channels.length)
         then .error "StegImage#hideBlob: Current pixel length is different from total capacity"
         else .ok ((trailingLoop b channels.length rnd kk
            (writeChunks b ((splitChunks b (bitsOfBytes hData)).1.map bitsVal ++ LV)
              (writeHeaderLoop b ⟨channels, 0⟩))).1.channels)) := by
  set st1 := writeHeaderLoop b ⟨channels, 0⟩ with hst1
  set PC := (splitChunks b (bitsOfBytes hData)).1 with hPC
  set R := (splitChunks b (bitsOfBytes hData)).2 with hR
  set PV := PC.map bitsVal with hPV
  have hbitsLen : (bitsOfBytes hData).length = 8 * hData.length := bitsOfBytes_length hData
  have hnum := splitChunks_num_len b (bitsOfBytes hData) (by omega)
  have hRlen : R.length = 8 * hData.length % b := by rw [hR, hnum.2, hbitsLen]
  have hRbits : ∀ x ∈ R, x < 2 := fun x hx =>
    bitsOfBytes_mem_lt hData x (splitChunks_rem_spec b _ x hx)
  have hjoin : joinL PC ++ R = bitsOfBytes hData := splitChunks_join b (bitsOfBytes hData)
  have hPCspec := splitChunks_chunk_spec b (bitsOfBytes hData)
  have hPCgood : ∀ c ∈ PC, c.length = b ∧ ∀ x ∈ c, x < 2 := by
    intro c hc
    obtain ⟨h1, h2⟩ := hPCspec c hc
    exact ⟨h1, fun x hx => bitsOfBytes_mem_lt hData x (h2 x hx)⟩
  have hvalsPV : valsBits b PV = joinL PC := valsBits_map_bitsVal b PC hPCgood
  have hpayload : payloadFold b hData st1 =
      (writeChunks b PV st1, bitsVal R, R.length) := by
    rw [payloadFold_eq_flat]
    have h := pushBit_fold_spec b (bitsOfBytes hData) [] st1 (bitsOfBytes_mem_lt hData)
      (by simp) (by simp only [List.length_nil]; omega)
    simpa using h
  unfold hideBlob
  rw [if_neg (not_not_intro ⟨hb1, hb8⟩)]
  simp only []
  rw [if_neg hcapgt, hpayload]
  by_cases hRz : R.length = 0
  · have hRnil : R = [] := List.eq_nil_of_length_eq_zero hRz
    refine ⟨[], [], 0, by simp, ?_, by simp, ?_, ?_⟩
    · rw [if_pos (by omega)]
      rfl
    · rw [List.append_nil, hvalsPV, List.append_nil, ← hjoin, hRnil, List.append_nil]
    · simp only []
      rw [if_neg (by simp [hRz])]
      simp only [List.append_nil]
  · have hmod : ¬ 8 * hData.length % b = 0 := by rw [← hRlen]; exact hRz
    set F := (List.range (b - R.length)).map (readBit (rnd 0 % 256)) with hF
    have hFbits : ∀ x ∈ F, x < 2 := by
      intro x hx
      rw [hF] at hx
      obtain ⟨i, -, rfl⟩ := List.mem_map.mp hx
      exact readBit_lt_two _ _
    have hRFlen : (R ++ F).length = b := by
      rw [List.length_append, hF, List.length_map, List.length_range]
      have : R.length < b := by rw [hRlen]; exact Nat.mod_lt _ (by omega)
      omega
    have hRFbits : ∀ x ∈ R ++ F, x < 2 := by
      intro x hx
      rcases List.mem_append.mp hx with hx | hx
      · exact hRbits x hx
      · exact hFbits x hx
    have hlv : bitsVal (R ++ F) < 2 ^ b := by
      have := bitsVal_lt (R ++ F) hRFbits
      rwa [hRFlen] at this
    refine ⟨[bitsVal (R ++ F)], F, 1, ?_, by simp [hmod], hFbits, ?_, ?_⟩
    · intro v hv
      simp only [List.mem_singleton] at hv
      subst hv
      exact hlv
    · rw [valsBits_append, hvalsPV]
      have hbv : bitsOfVal b (bitsVal (R ++ F)) = R ++ F := by
        rw [← hRFlen]
        exact bitsOfVal_bitsVal (R ++ F) hRFbits
      simp only [valsBits]
      rw [hbv, ← hjoin]
      simp [List.append_assoc]
    · simp only []
      rw [if_pos (by simpa using hRz),
        leftoverPhase_ok b (rnd 0 % 256) R hRbits hb8 (by omega)
          (by rw [hRlen]; exact Nat.mod_lt _ (by omega))]
      simp only [bind, Except.bind, pure, Except.pure]
      rw [writeChunks_append]
      rfl

end StegImage

namespace StegImage

/-- Master specification of `hideBlob` under the capacity precondition: it
succeeds, fills every alpha channel with the blank value, preserves nothing
past the header in plaintext except the encoded `bitsTaken`, and the masked
read-back of the non-header channels carries the payload bit stream followed
by filler bits. -/
theorem hideBlob_master (channels hData : List Nat) (b : Nat) (rnd : Nat → Nat)
    (hlen4 : channels.length % 4 = 0) (hch : ∀ x ∈ channels, x < 256)
    (hb1 : 1 ≤ b) (hb8 : b ≤ 8)
    (hcap : (hData.length : Int) ≤ (calcCapacity (channels.length : Int) b).2) :
    ∃ W T : List Nat,
      hideBlob channels hData b rnd = .ok W ∧
      W.length = channels.length ∧
      (∀ x ∈ W, x < 256) ∧
      (∀ i, i < channels.length → i % 4 = 3 → W.getD i 0 = 0) ∧
      revealBitsTaken W = b ∧
      (∀ x ∈ T, x < 2) ∧
      valsBits b (readValsAux W channels.length (2 ^ b - 1) 4) =
        bitsOfBytes hData ++ T := by
  have h4len : 4 ≤ channels.length := by
    by_contra hcon
    have h0 : channels.length = 0 := by omega
    rw [h0] at hcap
    unfold calcCapacity at hcap
    simp only [] at hcap
    rw [Int.fdiv_eq_ediv _ (by omega)] at hcap
    omega
  have hcapEq : (calcCapacity (channels.length : Int) b).2 =
      ((3 * (channels.length / 4 - 1) * b : Nat) / 8 : Nat) :=
    calcCapacity_nat channels.length b h4len hlen4
  have hncap : hData.length ≤ 3 * (channels.length / 4 - 1) * b / 8 := by
    rw [hcapEq] at hcap
    exact_mod_cast hcap
  have hslots4 : slots 4 channels.length = 3 * (channels.length / 4 - 1) :=
    slots_start channels.length hlen4 h4len
  obtain ⟨hstpos, hstlen, hst256', hr0, hr1, hr2, hg3⟩ :=
    writeHeaderLoop_facts b channels h4len
  obtain ⟨LV, F', kk, hLVlt, hLVlen, hF'bits, hstream, hrun⟩ :=
    hideBlob_mid channels hData b rnd hb1 hb8 (not_lt.mpr hcap)
  have hbitsLen : (bitsOfBytes hData).length = 8 * hData.length := bitsOfBytes_length hData
  have hnum := splitChunks_num_len b (bitsOfBytes hData) (by omega)
  have hPVlen : ((splitChunks b (bitsOfBytes hData)).1.map bitsVal).length
      = 8 * hData.length / b := by
    rw [List.length_map, hnum.1, hbitsLen]
  have hPLlen : ((splitChunks b (bitsOfBytes hData)).1.map bitsVal ++ LV).length =
      8 * hData.length / b + (if 8 * hData.length % b = 0 then 0 else 1) := by
    rw [List.length_append, hPVlen, hLVlen]
  have hchle : 8 * hData.length / b + (if 8 * hData.length % b = 0 then 0 else 1) ≤
      3 * (channels.length / 4 - 1) :=
    chunks_le_slots hData.length (3 * (channels.length / 4 - 1)) b hb1 hncap
  have hPCspec := splitChunks_chunk_spec b (bitsOfBytes hData)
  have hPVlt : ∀ v ∈ (splitChunks b (bitsOfBytes hData)).1.map bitsVal, v < 2 ^ b := by
    intro v hv
    obtain ⟨c, hc, rfl⟩ := List.mem_map.mp hv
    obtain ⟨hcl, hcm⟩ := hPCspec c hc
    have := bitsVal_lt c (fun x hx => bitsOfBytes_mem_lt hData x (hcm x hx))
    rwa [hcl] at this
  have hPLlt : ∀ v ∈ (splitChunks b (bitsOfBytes hData)).1.map bitsVal ++ LV,
      v < 2 ^ b := by
    intro v hv
    rcases List.mem_append.mp hv with hv | hv
    · exact hPVlt v hv
    · exact hLVlt v hv
  set st1 := writeHeaderLoop b ⟨channels, 0⟩ with hst1def
  set PL := (splitChunks b (bitsOfBytes hData)).1.map bitsVal ++ LV with hPLdef
  have htrack := writeChunks_pos_track b channels.length hlen4 PL st1
    (by rw [hstpos]; omega) (by rw [hstpos]; omega)
    (by rw [hstpos, hslots4, hPLlen]; exact hchle)
  set st2 := writeChunks b PL st1 with hst2def
  have htv_len : (trailingVals b channels.length rnd kk st2.pos).length =
      slots st2.pos channels.length := trailingVals_length b channels.length rnd kk st2.pos
  have htv_lt := trailingVals_mem_lt b channels.length rnd kk st2.pos
  have htl : (trailingLoop b channels.length rnd kk st2).1 =
      writeChunks b (trailingVals b channels.length rnd kk st2.pos) st2 :=
    trailingLoop_eq b channels.length rnd kk st2
  set TV := trailingVals b channels.length rnd kk st2.pos with hTVdef
  set VS := PL ++ TV with hVSdef
  have hVSlen : VS.length = slots 4 channels.length := by
    rw [hVSdef, List.length_append, htv_len, htrack.2.2, hstpos, hslots4, hPLlen]
    omega
  have hVSlt : ∀ v ∈ VS, v < 2 ^ b := by
    intro v hv
    rcases List.mem_append.mp hv with hv | hv
    · exact hPLlt v hv
    · exact htv_lt v hv
  have hWC : writeChunks b VS st1 = writeChunks b TV st2 := by
    rw [hVSdef, writeChunks_append, hst2def]
  have hspec := writeChunks_spec b channels.length hb1 hb8 hlen4 VS st1
    hstlen (hst256' hch) (by rw [hstpos]; omega) (by rw [hstpos]; omega)
    (by rw [hstpos]; exact hVSlen) hVSlt
  obtain ⟨hpos, hlen', h256', hbelow, halpha, hreads⟩ := hspec
  set W := (writeChunks b VS st1).channels with hWdef
  have hfinal : (trailingLoop b channels.length rnd kk st2).1.pos = channels.length := by
    rw [htl, ← hWC]
    exact hpos
  have hW : hideBlob channels hData b rnd = .ok W := by
    rw [hrun, if_neg (not_ne_iff.mpr hfinal)]
    congr 1
    rw [htl, ← hWC]
  have halphaW : ∀ i, i < channels.length → i % 4 = 3 → W.getD i 0 = 0 := by
    intro i hi1 hi2
    by_cases h4i : 4 ≤ i
    · exact halpha i (by rw [hstpos]; omega) hi1 hi2
    · have h3 : i = 3 := by omega
      subst h3
      rw [hbelow 3 (by rw [hstpos]; omega)]
      exact hg3
  have hrbt : revealBitsTaken W = b := by
    have e0 : W.getD 0 0 = st1.channels.getD 0 0 := hbelow 0 (by rw [hstpos]; omega)
    have e1 : W.getD 1 0 = st1.channels.getD 1 0 := hbelow 1 (by rw [hstpos]; omega)
    have e2 : W.getD 2 0 = st1.channels.getD 2 0 := hbelow 2 (by rw [hstpos]; omega)
    simp only [revealBitsTaken, e0, e1, e2, hr0, hr1, hr2]
    exact bits_reassemble b ⟨hb1, hb8⟩
  rw [hstpos] at hreads
  by_cases hc4 : 4 < channels.length
  · refine ⟨W, F' ++ (valsBits b TV ++ bitsOfVal b 0), hW, hlen', h256', halphaW, hrbt,
      ?_, ?_⟩
    · intro x hx
      rcases List.mem_append.mp hx with hx | hx
      · exact hF'bits x hx
      rcases List.mem_append.mp hx with hx | hx
      · exact valsBits_mem_lt b TV x hx
      · exact bitsOfVal_mem_lt b 0 x hx
    · rw [hreads, if_pos hc4, hVSdef,
        show (PL ++ TV) ++ [0] = PL ++ (TV ++ [0]) by simp,
        valsBits_append b PL (TV ++ [0]), valsBits_append b TV [0], hstream]
      simp [valsBits, List.append_assoc]
  · have hlen4' : channels.length = 4 := by omega
    have hA0 : slots 4 channels.length = 0 := by
      rw [hlen4']
      exact slots_stop 4 4 (by omega)
    have hVSnil : VS = [] := List.eq_nil_of_length_eq_zero (by rw [hVSlen, hA0])
    have hDnil : hData = [] := by
      rw [hlen4'] at hncap
      simpa using hncap
    refine ⟨W, [], hW, hlen', h256', halphaW, hrbt, by simp, ?_⟩
    rw [hreads, if_neg (by omega), hVSnil, hDnil]
    simp [bitsOfBytes, valsBits]

end StegImage

/-! ### Claim theorems: hideBlob cursor and alpha invariants -/

/-- C7: for a channel buffer whose length is a multiple of 4, `bitsTaken` in
1..8, and a payload of at most `capacity` bytes, the whole write sequence of
`hideBlob` (header, payload with partial-channel random fill, trailing
random fill) ends with the cursor exactly at the buffer length, so the
`CursorMismatch` branch is unreachable and `hideBlob` succeeds. -/
theorem claimC7_cursor_exact (channels hData : List Nat) (b : Nat) (rnd : Nat → Nat)
    (hlen4 : channels.length % 4 = 0) (hch : ∀ x ∈ channels, x < 256)
    (hb : validBits b)
    (hcap : (hData.length : Int) ≤ (StegImage.calcCapacity (channels.length : Int) b).2) :
    ∃ W, StegImage.hideBlob channels hData b rnd = .ok W := by
  obtain ⟨W, T, hW, -⟩ :=
    StegImage.hideBlob_master channels hData b rnd hlen4 hch hb.1 hb.2 hcap
  exact ⟨W, hW⟩

/-- Witness for C7: one byte hidden in a 4-pixel buffer at `bitsTaken = 1`. -/
theorem claimC7_cursor_exact_witness :
    ∃ W, StegImage.hideBlob (List.replicate 16 0) [170] 1 (fun _ => 0) = .ok W :=
  claimC7_cursor_exact (List.replicate 16 0) [170] 1 (fun _ => 0)
    (by decide) (by decide) (by decide) (by decide)

/-- C9: after a successful `hideBlob` on a buffer whose length is a multiple
of 4, every alpha channel — every index `i` with `i % 4 = 3`, including
index 3 of the header pixel — holds the blank sentinel, numerically
`256 % 256 = 0` on a wrapping byte buffer. -/
theorem claimC9_alpha_blank (channels hData : List Nat) (b : Nat) (rnd : Nat → Nat)
    (hlen4 : channels.length % 4 = 0) (hch : ∀ x ∈ channels, x < 256)
    (hb : validBits b)
    (hcap : (hData.length : Int) ≤ (StegImage.calcCapacity (channels.length : Int) b).2) :
    ∃ W, StegImage.hideBlob channels hData b rnd = .ok W ∧
      ∀ i, i < W.length → i % 4 = 3 → W.getD i 0 = 256 % 256 := by
  obtain ⟨W, T, hW, hlen, -, halpha, -⟩ :=
    StegImage.hideBlob_master channels hData b rnd hlen4 hch hb.1 hb.2 hcap
  exact ⟨W, hW, fun i hi1 hi2 => by rw [halpha i (by omega) hi2]⟩

/-- Witness for C9 at the same concrete input as C7. -/
theorem claimC9_alpha_blank_witness :
    ∃ W, StegImage.hideBlob (List.replicate 16 255) [170] 2 (fun k => k) = .ok W ∧
      ∀ i, i < W.length → i % 4 = 3 → W.getD i 0 = 256 % 256 :=
  claimC9_alpha_blank (List.replicate 16 255) [170] 2 (fun k => k)
    (by decide) (by decide) (by decide) (by decide)

namespace StegImage

theorem setFold_cons (out : List Nat) (pos x : Nat) (xs : List Nat) :
    setFold out pos (x :: xs) = setFold (out.set pos x) (pos + 1) xs := rfl

theorem setFold_len (bytes : List Nat) :
    ∀ (out : List Nat) (pos : Nat), (setFold out pos bytes).1.length = out.length := by
  induction bytes with
  | nil => intro out pos; rfl
  | cons x xs ih =>
    intro out pos
    rw [setFold_cons, ih]
    simp

theorem setFold_getD (bytes : List Nat) :
    ∀ (out : List Nat) (pos i : Nat),
      (setFold out pos bytes).1.getD i 0 =
        if pos ≤ i ∧ i < pos + bytes.length ∧ i < out.length then bytes.getD (i - pos) 0
        else out.getD i 0 := by
  induction bytes with
  | nil =>
    intro out pos i
    rw [if_neg (by simp; omega)]
    rfl
  | cons x xs ih =>
    intro out pos i
    rw [setFold_cons, ih (out.set pos x) (pos + 1) i]
    by_cases h1 : pos + 1 ≤ i ∧ i < pos + 1 + xs.length ∧ i < (out.set pos x).length
    · rw [if_pos h1,
        if_pos (by simp only [List.length_set] at h1; simp only [List.length_cons]; omega)]
      have he : i - pos = (i - (pos + 1)) + 1 := by omega
      rw [he, List.getD_cons_succ]
    · rw [if_neg h1]
      simp only [List.length_set] at h1
      by_cases h2 : pos ≤ i ∧ i < pos + (x :: xs).length ∧ i < out.length
      · rw [if_pos h2]
        simp only [List.length_cons] at h2
        have hip : i = pos := by omega
        subst hip
        rw [show i - i = 0 by omega, List.getD_cons_zero]
        simp [List.getD_eq_getElem?_getD,
          List.getElem?_set_self (show i < out.length by omega)]
      · rw [if_neg h2]
        simp only [List.length_cons] at h2
        by_cases h3 : i < out.length
        · have hne : pos ≠ i := by omega
          simp [List.getD_eq_getElem?_getD, List.getElem?_set_ne hne]
        · have h4 : out.length ≤ i := by omega
          rw [List.getD_eq_getElem?_getD, List.getD_eq_getElem?_getD,
            List.getElem?_eq_none (by simpa using h4), List.getElem?_eq_none h4]

theorem revealLoop_eq_fold (channels : List Nat) (len b mask : Nat) :
    ∀ (n cid buf bufBits : Nat) (out : List Nat) (outPos : Nat), len - cid ≤ n →
      revealLoop channels len b mask cid buf bufBits out outPos =
        ((readValsAux channels len mask cid).foldl (readStep b)
          (out, outPos, buf, bufBits)).1 := by
  intro n
  induction n with
  | zero =>
    intro cid buf bufBits out outPos hn
    have hstop : ¬ cid < len := by omega
    rw [revealLoop, if_neg hstop, readValsAux_stop _ _ _ _ hstop]
    rfl
  | succ n ihn =>
    intro cid buf bufBits out outPos hn
    by_cases hlt : cid < len
    · rw [revealLoop, if_pos hlt, readValsAux, if_pos hlt]
      simp only [List.foldl_cons, readStep]
      set c := if isAlpha cid then cid + 1 else cid with hc
      have hcge : cid ≤ c := by rw [hc]; split <;> omega
      by_cases h8 : 8 ≤ bufBits + b
      · rw [if_pos h8, if_pos h8]
        exact ihn _ _ _ _ _ (by omega)
      · rw [if_neg h8, if_neg h8]
        exact ihn _ _ _ _ _ (by omega)
    · rw [revealLoop, if_neg hlt, readValsAux_stop _ _ _ _ hlt]
      rfl

theorem readValsAux_mem_lt (channels : List Nat) (len b' : Nat) :
    ∀ (n cid : Nat), len - cid ≤ n →
      ∀ v ∈ readValsAux channels len (2 ^ b' - 1) cid, v < 2 ^ b' := by
  intro n
  induction n with
  | zero =>
    intro cid hn
    rw [readValsAux_stop _ _ _ _ (by omega)]
    simp
  | succ n ihn =>
    intro cid hn
    by_cases hlt : cid < len
    · rw [readValsAux, if_pos hlt]
      simp only []
      set c := if isAlpha cid then cid + 1 else cid with hc
      have hcge : cid ≤ c := by rw [hc]; split <;> omega
      intro v hv
      rcases List.mem_cons.mp hv with rfl | hv
      · have h1 : channels.getD c 0 &&& (2 ^ b' - 1) ≤ 2 ^ b' - 1 := Nat.and_le_right
        have h2 : 0 < 2 ^ b' := Nat.two_pow_pos b'
        omega
      · exact ihn _ (by omega) v hv
    · rw [readValsAux_stop _ _ _ _ hlt]
      simp

end StegImage

theorem splitChunks_bytes_prefix (l T : List Nat) :
    splitChunks 8 (bitsOfBytes l ++ T) =
      (l.map byteBits ++ (splitChunks 8 T).1, (splitChunks 8 T).2) := by
  induction l with
  | nil => simp [bitsOfBytes]
  | cons x xs ih =>
    simp only [bitsOfBytes, List.map_cons, List.append_assoc, List.cons_append]
    rw [splitChunks_chunk 8 (byteBits x) _ (byteBits_length x) (by omega), ih]

namespace StegImage

theorem readFold_spec (b : Nat) (hb1 : 1 ≤ b) (hb8 : b ≤ 8) (vs : List Nat) :
    ∀ (r : List Nat) (out : List Nat) (outPos : Nat),
      (∀ v ∈ vs, v < 2 ^ b) → (∀ x ∈ r, x < 2) → r.length < 8 →
      vs.foldl (readStep b) (out, outPos, bitsVal r, r.length) =
        ((setFold out outPos ((splitChunks 8 (r ++ valsBits b vs)).1.map bitsVal)).1,
         (setFold out outPos ((splitChunks 8 (r ++ valsBits b vs)).1.map bitsVal)).2,
         bitsVal (splitChunks 8 (r ++ valsBits b vs)).2,
         (splitChunks 8 (r ++ valsBits b vs)).2.length) := by
  induction vs with
  | nil =>
    intro r out outPos hvs hr hr8
    rw [show valsBits b [] = [] from rfl, List.append_nil,
      splitChunks_small 8 r (by omega)]
    simp [setFold]
  | cons v vs ih =>
    intro r out outPos hvs hr hr8
    have hv : v < 2 ^ b := hvs v (by simp)
    have hvs' : ∀ w ∈ vs, w < 2 ^ b := fun w hw => hvs w (by simp [hw])
    have hcl : (bitsOfVal b v).length = b := bitsOfVal_length b v
    have hcb : ∀ x ∈ bitsOfVal b v, x < 2 := bitsOfVal_mem_lt b v
    have hbvc : bitsVal (bitsOfVal b v) = v := by
      rw [bitsVal_bitsOfVal, Nat.mod_eq_of_lt hv]
    have hrc2 : ∀ x ∈ r ++ bitsOfVal b v, x < 2 := by
      intro x hx
      rcases List.mem_append.mp hx with hx | hx
      · exact hr x hx
      · exact hcb x hx
    have hLlen : (r ++ bitsOfVal b v).length = r.length + b := by
      simp [hcl]
    have hbuf : (bitsVal r <<< b) ||| v = bitsVal (r ++ bitsOfVal b v) := by
      rw [bitsVal_append r _ hcb, hcl, hbvc, lor_shl_eq_add _ v b hv]
    have hvals : r ++ valsBits b (v :: vs) = (r ++ bitsOfVal b v) ++ valsBits b vs := by
      simp [valsBits, List.append_assoc]
    simp only [List.foldl_cons, readStep]
    by_cases h8 : 8 ≤ r.length + b
    · rw [if_pos h8]
      have hdb : ∀ x ∈ (r ++ bitsOfVal b v).drop 8, x < 2 :=
        fun x hx => hrc2 x (List.mem_of_mem_drop hx)
      have htb : ∀ x ∈ (r ++ bitsOfVal b v).take 8, x < 2 :=
        fun x hx => hrc2 x (List.mem_of_mem_take hx)
      have htlen : ((r ++ bitsOfVal b v).take 8).length = 8 := by
        simp only [List.length_take, hLlen]
        omega
      have hdlen : ((r ++ bitsOfVal b v).drop 8).length = r.length + b - 8 := by
        simp [hLlen]
      have hLval : bitsVal (r ++ bitsOfVal b v) =
          bitsVal ((r ++ bitsOfVal b v).take 8) * 2 ^ (r.length + b - 8) +
            bitsVal ((r ++ bitsOfVal b v).drop 8) := by
        conv_lhs => rw [← List.take_append_drop 8 (r ++ bitsOfVal b v)]
        rw [bitsVal_append _ _ hdb, hdlen]
      have hdlt : bitsVal ((r ++ bitsOfVal b v).drop 8) < 2 ^ (r.length + b - 8) := by
        have := bitsVal_lt _ hdb
        rwa [hdlen] at this
      have htlt : bitsVal ((r ++ bitsOfVal b v).take 8) < 256 := by
        have := bitsVal_lt _ htb
        rw [htlen] at this
        omega
      have htop : bitsVal (r ++ bitsOfVal b v) >>> (r.length + b - 8) =
          bitsVal ((r ++ bitsOfVal b v).take 8) := by
        rw [Nat.shiftRight_eq_div_pow, hLval,
          show bitsVal ((r ++ bitsOfVal b v).take 8) * 2 ^ (r.length + b - 8) +
              bitsVal ((r ++ bitsOfVal b v).drop 8) =
            2 ^ (r.length + b - 8) * bitsVal ((r ++ bitsOfVal b v).take 8) +
              bitsVal ((r ++ bitsOfVal b v).drop 8) by ring,
          Nat.mul_add_div (Nat.two_pow_pos _), Nat.div_eq_of_lt hdlt]
        omega
      have hcarry : bitsVal (r ++ bitsOfVal b v) &&& (2 ^ (r.length + b - 8) - 1) =
          bitsVal ((r ++ bitsOfVal b v).drop 8) := by
        rw [Nat.and_pow_two_sub_one_eq_mod, hLval,
          show bitsVal ((r ++ bitsOfVal b v).take 8) * 2 ^ (r.length + b - 8) +
              bitsVal ((r ++ bitsOfVal b v).drop 8) =
            2 ^ (r.length + b - 8) * bitsVal ((r ++ bitsOfVal b v).take 8) +
              bitsVal ((r ++ bitsOfVal b v).drop 8) by ring,
          Nat.mul_add_mod, Nat.mod_eq_of_lt hdlt]
      rw [hbuf, htop, Nat.mod_eq_of_lt htlt, hcarry,
        show r.length + b - 8 = ((r ++ bitsOfVal b v).drop 8).length from hdlen.symm,
        ih ((r ++ bitsOfVal b v).drop 8) (out.set outPos
          (bitsVal ((r ++ bitsOfVal b v).take 8))) (outPos + 1) hvs' hdb
          (by rw [hdlen]; omega),
        hvals,
        show (r ++ bitsOfVal b v) ++ valsBits b vs =
          (r ++ bitsOfVal b v).take 8 ++ ((r ++ bitsOfVal b v).drop 8 ++ valsBits b vs)
          by rw [← List.append_assoc, List.take_append_drop],
        splitChunks_chunk 8 _ _ htlen (by omega)]
      simp only [List.map_cons, setFold_cons]
    · rw [if_neg h8]
      rw [hbuf, show r.length + b = (r ++ bitsOfVal b v).length from hLlen.symm,
        ih (r ++ bitsOfVal b v) out outPos hvs' hrc2 (by rw [hLlen]; omega), hvals]

end StegImage

namespace StegImage

/-- Reading back a buffer whose masked non-header stream carries the
ciphertext bit stream returns exactly the ciphertext. -/
theorem revealBlob_of_stream (W ct T : List Nat) (b : Nat)
    (hb1 : 1 ≤ b) (hb8 : b ≤ 8)
    (hrbt : revealBitsTaken W = b)
    (hcap : (calcCapacity (W.length : Int) b).2 = (ct.length : Int))
    (hctb : ∀ x ∈ ct, x < 256)
    (_hT : ∀ x ∈ T, x < 2)
    (hstream : valsBits b (readValsAux W W.length (2 ^ b - 1) 4) =
      bitsOfBytes ct ++ T) :
    revealBlob W = .ok ct := by
  have hE : revealBitsTakenE W = .ok b := by
    unfold revealBitsTakenE
    simp only []
    rw [hrbt, if_pos ⟨hb1, hb8⟩]
  unfold revealBlob
  rw [hE]
  simp only [bind, Except.bind]
  rw [hcap, if_neg (by omega)]
  have htoNat : ((ct.length : Int)).toNat = ct.length := by simp
  rw [htoNat]
  have hfold := revealLoop_eq_fold W W.length b (2 ^ b - 1) W.length 4 0 0
    (List.replicate ct.length 0) 0 (by omega)
  have hvals := readValsAux_mem_lt W W.length b W.length 4 (by omega)
  have hspec := readFold_spec b hb1 hb8 (readValsAux W W.length (2 ^ b - 1) 4)
    [] (List.replicate ct.length 0) 0 hvals (by simp) (by simp)
  simp only [bitsVal_nil, List.length_nil] at hspec
  rw [List.nil_append, hstream, splitChunks_bytes_prefix, List.map_append,
    List.map_map] at hspec
  have hmapct : ct.map (bitsVal ∘ byteBits) = ct := by
    have h : ∀ x ∈ ct, (bitsVal ∘ byteBits) x = id x := fun x hx => by
      simp [Function.comp, bitsVal_byteBits, Nat.mod_eq_of_lt (hctb x hx)]
    rw [List.map_congr_left h, List.map_id]
  rw [hmapct] at hspec
  have hout : (setFold (List.replicate ct.length 0) 0
      (ct ++ (splitChunks 8 T).1.map bitsVal)).1 = ct := by
    apply List.ext_getElem
    · rw [setFold_len]
      simp
    · intro i h1 h2
      rw [setFold_len] at h1
      simp only [List.length_replicate] at h1
      rw [← List.getD_eq_getElem _ 0 (by rw [setFold_len]; simpa using h1),
        ← List.getD_eq_getElem _ 0 h2, setFold_getD,
        if_pos (by simp only [Nat.zero_le, List.length_append, List.length_replicate,
          true_and]; omega)]
      simp only [Nat.sub_zero]
      exact List.getD_append _ _ _ _ h2
  rw [hfold, hspec, hout]
  rfl

end StegImage

namespace RawFile

theorem packWithPadding_full (data name : List Nat) (req : Int)
    (h1 : 1 ≤ name.length) (h255 : name.length ≤ 255)
    (hnameb : ∀ x ∈ name, x < 256) (hdatab : ∀ x ∈ data, x < 256)
    (hd32 : data.length < 2 ^ 32)
    (hreq : (1 + name.length + 4 + data.length : Int) ≤ req) :
    ∃ padded, packWithPadding data name req = .ok padded ∧
      (padded.length : Int) = req ∧ (∀ x ∈ padded, x < 256) ∧
      fromPacked padded = .ok (name, data) := by
  unfold packWithPadding
  rw [pack_ok data name h1 h255]
  simp only [bind, Except.bind, pure, Except.pure]
  have hPlen : ((([name.length % 256] ++ name.map (· % 256) ++ u32be data.length) ++
      data.map (· % 256)) : List Nat).length = 1 + name.length + 4 + data.length := by
    simp [u32be]
    omega
  rw [if_neg (by rw [hPlen]; push_cast; omega)]
  refine ⟨_, rfl, ?_, ?_, ?_⟩
  · rw [List.length_append, hPlen, List.length_replicate]
    have hnn : (0 : Int) ≤ req - (1 + name.length + 4 + data.length : Int) := by omega
    push_cast [Int.toNat_of_nonneg hnn]
    omega
  · intro x hx
    rcases List.mem_append.mp hx with hx | hx
    · rcases List.mem_append.mp hx with hx | hx
      · rcases List.mem_append.mp hx with hx | hx
        · rcases List.mem_append.mp hx with hx | hx
          · simp only [List.mem_singleton] at hx
            subst hx
            exact Nat.mod_lt _ (by omega)
          · obtain ⟨y, -, rfl⟩ := List.mem_map.mp hx
            exact Nat.mod_lt _ (by omega)
        · simp only [u32be, List.mem_cons, List.mem_singleton] at hx
          rcases hx with rfl | rfl | rfl | rfl | h
          · exact Nat.mod_lt _ (by omega)
          · exact Nat.mod_lt _ (by omega)
          · exact Nat.mod_lt _ (by omega)
          · exact Nat.mod_lt _ (by omega)
          · simp at h
      · obtain ⟨y, -, rfl⟩ := List.mem_map.mp hx
        exact Nat.mod_lt _ (by omega)
    · rw [List.eq_of_mem_replicate hx]
      omega
  · exact fromPacked_pack data name _ h1 h255 hnameb hdatab hd32

end RawFile

/-! ### Claim theorem: the full round trip (C1) -/

/-- C1: for every RGBA channel buffer whose length is a multiple of 4, every
`bitsTaken` in 1..8, every 32-byte key, and every file (1..255-byte name,
content bytes) whose packed-with-padding size fits `capacity - 28`,
revealing after hiding returns the original file.  The AES-GCM provider is
abstracted by its contract: on byte plaintexts, `enc` adds exactly 28 bytes
of overhead (12-byte nonce, 16-byte tag), outputs bytes, and `dec`
inverts it. -/
theorem claimC1_hide_reveal_roundtrip (channels name content key : List Nat) (b : Nat)
    (enc dec : List Nat → List Nat → List Nat) (rnd : Nat → Nat)
    (hlen4 : channels.length % 4 = 0) (hch : ∀ x ∈ channels, x < 256)
    (hb : validBits b) (_hkey : key.length = 32)
    (hname1 : 1 ≤ name.length) (hname255 : name.length ≤ 255)
    (hnameb : ∀ x ∈ name, x < 256) (hcontb : ∀ x ∈ content, x < 256)
    (hcont32 : content.length < 2 ^ 32)
    (henclen : ∀ pt, (∀ x ∈ pt, x < 256) → (enc key pt).length = pt.length + 28)
    (hencb : ∀ pt, (∀ x ∈ pt, x < 256) → ∀ x ∈ enc key pt, x < 256)
    (hdec : ∀ pt, (∀ x ∈ pt, x < 256) → dec key (enc key pt) = pt)
    (hfit : (1 + name.length + 4 + content.length : Int) ≤
      (StegImage.calcCapacity (channels.length : Int) b).2 - 28) :
    ∃ W, StegImage.hide channels content name key enc b rnd = .ok W ∧
      StegImage.reveal W key dec = .ok (name, content) := by
  obtain ⟨hb1, hb8⟩ := hb
  obtain ⟨padded, hpad, hpadlen, hpadb, hunpack⟩ :=
    RawFile.packWithPadding_full content name
      ((StegImage.calcCapacity (channels.length : Int) b).2 - 28)
      hname1 hname255 hnameb hcontb hcont32 hfit
  have hctlen : ((enc key padded).length : Int) =
      (StegImage.calcCapacity (channels.length : Int) b).2 := by
    rw [henclen padded hpadb]
    push_cast
    omega
  have hctb : ∀ x ∈ enc key padded, x < 256 := hencb padded hpadb
  obtain ⟨W, T, hhide, hWlen, hW256, halpha, hrbt, hTb, hstream⟩ :=
    StegImage.hideBlob_master channels (enc key padded) b rnd hlen4 hch hb1 hb8
      (le_of_eq hctlen)
  refine ⟨W, ?_, ?_⟩
  · unfold StegImage.hide
    rw [if_neg (not_not_intro ⟨hb1, hb8⟩)]
    simp only []
    rw [hpad]
    simp only [bind, Except.bind]
    rw [if_neg (not_ne_iff.mpr hctlen)]
    exact hhide
  · unfold StegImage.reveal
    have hrb : StegImage.revealBlob W = .ok (enc key padded) := by
      apply StegImage.revealBlob_of_stream W (enc key padded) T b hb1 hb8 hrbt ?_ hctb hTb ?_
      · rw [hWlen]
        exact hctlen.symm
      · rw [hWlen]
        exact hstream
    rw [hrb]
    simp only [bind, Except.bind]
    rw [hdec padded hpadb]
    exact hunpack

/-- Witness for C1: a 13-pixel buffer at `bitsTaken = 8` (capacity 36 bytes)
carrying the file `("a", [5, 6])`, with a concrete provider satisfying the
AEAD contract. -/
theorem claimC1_hide_reveal_roundtrip_witness :
    ∃ W, StegImage.hide (List.replicate 52 0) [5, 6] [97] (List.replicate 32 1)
        (fun _ pt => List.replicate 12 0 ++ pt.map (· % 256) ++ List.replicate 16 0)
        8 (fun k => k) = .ok W ∧
      StegImage.reveal W (List.replicate 32 1)
        (fun _ ct => (ct.drop 12).take (ct.length - 28)) = .ok ([97], [5, 6]) :=
  claimC1_hide_reveal_roundtrip (List.replicate 52 0) [97] [5, 6] (List.replicate 32 1) 8
    (fun _ pt => List.replicate 12 0 ++ pt.map (· % 256) ++ List.replicate 16 0)
    (fun _ ct => (ct.drop 12).take (ct.length - 28)) (fun k => k)
    (by decide) (by decide) (by decide) (by decide) (by decide) (by decide)
    (by decide) (by decide) (by decide)
    (by intro pt _; simp)
    (by
      intro pt hpt x hx
      simp only [List.mem_append, List.mem_replicate, List.mem_map] at hx
      rcases hx with (⟨-, rfl⟩ | ⟨y, -, rfl⟩) | ⟨-, rfl⟩
      · omega
      · exact Nat.mod_lt _ (by omega)
      · omega)
    (by
      intro pt hpt
      have hmap : pt.map (· % 256) = pt := by
        rw [show pt.map (· % 256) = pt.map id from
          List.map_congr_left fun x hx => Nat.mod_eq_of_lt (hpt x hx), List.map_id]
      simp only []
      rw [List.append_assoc, List.drop_left' (by simp)]
      simp only [List.length_append, List.length_replicate, List.length_map]
      rw [show 12 + (pt.length + 16) - 28 = pt.length by omega,
        List.take_left' (by simp)]
      exact hmap)
    (by decide)
